import Mathlib

/-!
Verification of the phopy scan-classify-plan-execute pipeline.

The definitions below are a shallow embedding of the Go sources:
  internal/domain/filemeta.go, internal/domain/plan.go,
  internal/app/planner.go, internal/app/executor.go.

Modelling conventions:
  * `time.Time` is embedded as `Int` (`Before` = `<`, `After` = `>`,
    `Equal` = `=`).
  * Go errors are `String`; fallible functions return `Except String`
    or carry an `Option String` error component.
  * The filesystem and the EXIF reader are injected dependencies; they
    are embedded as total functions inside the `FS` / `Planner`
    structures.  A directory walk is the list of entries the walk
    callback would receive, each with the `walkErr` argument Go passes
    alongside it.
  * The EXIF worker pool processes candidates concurrently in Go; the
    per-candidate computation is pure, so it is embedded as a pure
    function per path, with the nondeterministic completion order
    explored by quantifying over permutations where a claim requires it.
  * `context.Context` cancellation is not modelled (no claim is about
    cancellation).
-/

/-- Suffix of `s` after the last `/` character (the whole string when no
`/` occurs).  Helper for the lexical parts of Go's `path/filepath`. -/
def afterLastSlash (s : String) : String :=
  ⟨(s.data.reverse.takeWhile (fun c => c != '/')).reverse⟩

/-- Extension of a slash-free file name: the suffix starting at the last
dot, empty when the name has no dot.  Mirrors the scan Go's
`filepath.Ext` performs inside the final path element. -/
def extOfName (n : String) : String :=
  match n.data.reverse.dropWhile (fun c => c != '.') with
  | [] => ""
  | _ :: _ => ⟨'.' :: (n.data.reverse.takeWhile (fun c => c != '.')).reverse⟩

/-- Embedding of Go `filepath.Ext`: the suffix beginning at the final
dot in the final slash-separated element of the path. -/
def filepathExt (p : String) : String :=
  extOfName (afterLastSlash p)

/-- Embedding of Go `filepath.Base` for the walk-produced file paths
used here (no trailing-separator normalisation, which only matters for
directory-shaped paths). -/
def filepathBase (p : String) : String :=
  if p = "" then "." else afterLastSlash p

/-- ASCII lower-casing of one character; the fragment of Go's Unicode
`strings.ToLower` exercised by extension and base-name handling. -/
def lowerChar (c : Char) : Char :=
  if 'A' ≤ c ∧ c ≤ 'Z' then Char.ofNat (c.toNat + 32) else c

/-- Embedding of Go `strings.ToLower` (ASCII range). -/
def toLowerStr (s : String) : String :=
  ⟨s.data.map lowerChar⟩

/-- Embedding of Go `strings.TrimSuffix`. -/
def trimSuffix (s suffix : String) : String :=
  if suffix.data.isSuffixOf s.data then ⟨s.data.take (s.data.length - suffix.data.length)⟩ else s

/-- Lexical embedding of Go `filepath.Rel(base, targ)` for the rooted
case exercised by the planner: the path relative to `base` when `targ`
lies under it, `none` modelling the error return otherwise. -/
def relPath (base targ : String) : Option String :=
  if targ = base then some "."
  else if (base.data ++ ['/']).isPrefixOf targ.data then some ⟨targ.data.drop (base.data.length + 1)⟩
  else none

/-- Lexical embedding of Go `filepath.Join(a, b)` (no `Clean`
normalisation; the planner only joins clean segments). -/
def joinPath (a b : String) : String :=
  if a = "" then b else if b = "" then a else a ++ "/" ++ b

/-- RAW extension set from `domain.IsRawExtension` (internal/domain/filemeta.go). -/
def rawExtensions : List String :=
  [".arw", ".cr2", ".cr3", ".nef", ".raf", ".rw2", ".orf", ".dng"]

/-- JPEG extension set from `domain.IsJpegExtension`. -/
def jpegExtensions : List String :=
  [".jpg", ".jpeg"]

/-- Embedding of `domain.IsRawExtension`: the Go switch lower-cases its
argument and compares with the closed RAW set. -/
def IsRawExtension (ext : String) : Bool :=
  rawExtensions.contains (toLowerStr ext)

/-- Embedding of `domain.IsJpegExtension`. -/
def IsJpegExtension (ext : String) : Bool :=
  jpegExtensions.contains (toLowerStr ext)

/-- Embedding of `domain.FileMeta` (internal/domain/filemeta.go). -/
structure FileMeta where
  SourcePath : String
  RelativePath : String
  Name : String
  BaseName : String
  Ext : String
  TakenAt : Int
  IsRAW : Bool
  IsJPEG : Bool
deriving DecidableEq, Repr

/-- Embedding of `domain.NewFileMeta`. -/
def NewFileMeta (sourcePath relativePath : String) (takenAt : Int) : FileMeta :=
  let name := filepathBase sourcePath
  let ext := toLowerStr (filepathExt name)
  let base := trimSuffix name (filepathExt name)
  { SourcePath := sourcePath
    RelativePath := relativePath
    Name := name
    BaseName := toLowerStr base
    Ext := ext
    TakenAt := takenAt
    IsRAW := IsRawExtension ext
    IsJPEG := IsJpegExtension ext }

/-- Embedding of `domain.CopyItem`. -/
structure CopyItem where
  FileMeta : FileMeta
  TargetPath : String
deriving DecidableEq, Repr

/-- Embedding of `domain.CopyPlan`.  The planner (internal/app/planner.go)
populates all of these fields; the repository snapshot of
internal/domain/plan.go predates the two date/duplicate counters, whose
presence is fixed by the planner and the TUI sources. -/
structure CopyPlan where
  Items : List CopyItem
  OverrideItems : List CopyItem
  SkippedJPEGs : Nat
  SkippedRAWsDate : Nat
  SkippedRAWsDupl : Nat
  RangeStart : Option Int
  RangeEnd : Option Int
  RawCount : Nat
  JpegCount : Nat
  RawOverrides : Nat
  JpegOverrides : Nat
  Warnings : List String
deriving DecidableEq, Repr

/-- Zero value `domain.CopyPlan{}`, returned by `Plan` on every error path. -/
def emptyCopyPlan : CopyPlan :=
  { Items := [], OverrideItems := [], SkippedJPEGs := 0, SkippedRAWsDate := 0,
    SkippedRAWsDupl := 0, RangeStart := none, RangeEnd := none, RawCount := 0,
    JpegCount := 0, RawOverrides := 0, JpegOverrides := 0, Warnings := [] }

/-- Directory-walk entry: the `(path, d, walkErr)` triple Go's
`fs.WalkDirFunc` callback receives.  `isDir` is `d.IsDir()`; `walkErr`
is the traversal error delivered alongside the entry. -/
structure FSEntry where
  path : String
  isDir : Bool
  walkErr : Option String
deriving DecidableEq, Repr

/-- Injected filesystem capability used by the planner (`app.FileSystem`):
`walk` is the sequence of callback invocations `WalkDir` performs,
`statRes` is `Stat` returning the modification time, `existsRes` is
`Exists` returning `(bool, error)`. -/
structure FS where
  walk : List FSEntry
  statRes : String → Except String Int
  existsRes : String → Bool × Option String

/-- Outcome of `ExifReader.DateTimeOriginal`: a timestamp, a
cancellation-class error (propagated as fatal), or any other failure
(treated as metadata-unavailable). -/
inductive ExifRes where
  | ok (t : Int)
  | canceled (e : String)
  | unavailable
deriving DecidableEq, Repr

/-- Embedding of `app.Planner` (internal/app/planner.go).  The worker
count, logger and progress callback do not affect the plan value and
are omitted; the nil-dependency guard in `Plan` is vacuous here because
the dependencies are total fields. -/
structure Planner where
  fs : FS
  exif : String → ExifRes
  allowOverride : Bool

/-- Embedding of `Planner.shouldIncludeSource` (planner.go lines 32-43):
include unless override mode is off and the target path already exists;
a `filepath.Rel` failure falls back to inclusion. -/
def shouldIncludeSource (p : Planner) (sourceDir targetDir sourcePath : String) : Bool :=
  if p.allowOverride then true
  else
    match relPath sourceDir sourcePath with
    | none => true
    | some rel => !(p.fs.existsRes (joinPath targetDir rel)).1

/-- Lower-cased, extension-stripped dedup key of a file name, as
computed at planner.go lines 141-142 and again at lines 172-173:
`strings.ToLower(strings.TrimSuffix(name, filepath.Ext(name)))`. -/
def baseNameKey (name : String) : String :=
  toLowerStr (trimSuffix name (filepathExt name))

/-- Phase 1 of `Planner.scan` (planner.go lines 128-154): walk the
source tree, abort on the first traversal error, separate RAW and JPEG
paths, and build the RAW base-name set (lower-cased, extension-stripped
base names, a Go map embedded as a list with membership lookup). -/
def walkPhase : List FSEntry → Except String (List String × List String × List String)
  | [] => Except.ok ([], [], [])
  | e :: rest =>
    match e.walkErr with
    | some err => Except.error err
    | none =>
      if e.isDir then walkPhase rest
      else
        let name := filepathBase e.path
        if IsRawExtension (filepathExt name) then
          (walkPhase rest).map (fun t => (e.path :: t.1, t.2.1, baseNameKey name :: t.2.2))
        else if IsJpegExtension (filepathExt name) then
          (walkPhase rest).map (fun t => (t.1, e.path :: t.2.1, t.2.2))
        else walkPhase rest

/-- Phase 2, RAW half (planner.go lines 161-168): keep RAW paths that
pass `shouldIncludeSource`, count the rest as duplicate-skipped. -/
def phase2raw (p : Planner) (sourceDir targetDir : String) : List String → List String × Nat
  | [] => ([], 0)
  | path :: rest =>
    let r := phase2raw p sourceDir targetDir rest
    if shouldIncludeSource p sourceDir targetDir path then (path :: r.1, r.2) else (r.1, r.2 + 1)

/-- Phase 2, JPEG half (planner.go lines 170-184): drop (and count) a
JPEG whose base name has a RAW counterpart, then apply
`shouldIncludeSource`; a JPEG dropped by the target-existence check is
not counted anywhere. -/
def phase2jpeg (p : Planner) (sourceDir targetDir : String) (rawBases : List String) :
    List String → List String × Nat
  | [] => ([], 0)
  | path :: rest =>
    let r := phase2jpeg p sourceDir targetDir rawBases rest
    let base := baseNameKey (filepathBase path)
    if rawBases.contains base then (r.1, r.2 + 1)
    else if shouldIncludeSource p sourceDir targetDir path then (path :: r.1, r.2) else (r.1, r.2)

/-- Candidate paths surviving phases 1-2, in submission order (RAWs
then JPEGs, each in walk order); empty when the walk failed. -/
def pathsToProcess (p : Planner) (sourceDir targetDir : String) : List String :=
  match walkPhase p.fs.walk with
  | Except.error _ => []
  | Except.ok t => (phase2raw p sourceDir targetDir t.1).1 ++ (phase2jpeg p sourceDir targetDir t.2.2 t.2.1).1

/-- Per-candidate outcome emitted by an EXIF worker (the `result`
struct of planner.go lines 200-206): fatal error, date-skip (tagged
with the RAW classification of line 221), or an included `FileMeta`
with an optional metadata-fallback warning. -/
inductive WorkerOutcome where
  | fatal (e : String)
  | skipped (isRAW : Bool)
  | included (m : FileMeta) (warning : Option String)
deriving DecidableEq, Repr

/-- Timestamp strictly before an optional bound (`takenAt.Before(*startDate)`). -/
def beforeOpt (t : Int) (b : Option Int) : Bool :=
  match b with
  | some s => decide (t < s)
  | none => false

/-- Timestamp strictly after an optional bound (`takenAt.After(*endDate)`). -/
def afterOpt (t : Int) (b : Option Int) : Bool :=
  match b with
  | some s => decide (s < t)
  | none => false

/-- Relative path of a candidate, with the `filepath.Base` fallback Go
applies when `filepath.Rel` fails (planner.go lines 250-253). -/
def relOrBase (sourceDir path : String) : String :=
  match relPath sourceDir path with
  | some rel => rel
  | none => filepathBase path

/-- Warning emitted on metadata fallback (planner.go line 238). -/
def exifWarning (path : String) : String :=
  "EXIF not found for " ++ filepathBase path ++ ", using filesystem time"

/-- Worker steps after the stat and fast-path checks (planner.go lines
230-258): read EXIF, propagate cancellation as fatal, otherwise fall
back to the modification time with a warning, then apply both date
bounds and build the `FileMeta`. -/
def processExif (p : Planner) (sourceDir : String) (sd ed : Option Int)
    (path : String) (modTime : Int) (isRAW : Bool) : WorkerOutcome × Bool :=
  match p.exif path with
  | ExifRes.canceled e => (WorkerOutcome.fatal e, true)
  | ExifRes.ok t =>
    if beforeOpt t sd then (WorkerOutcome.skipped isRAW, true)
    else if afterOpt t ed then (WorkerOutcome.skipped isRAW, true)
    else (WorkerOutcome.included (NewFileMeta path (relOrBase sourceDir path) t) none, true)
  | ExifRes.unavailable =>
    if beforeOpt modTime sd then (WorkerOutcome.skipped isRAW, true)
    else if afterOpt modTime ed then (WorkerOutcome.skipped isRAW, true)
    else (WorkerOutcome.included (NewFileMeta path (relOrBase sourceDir path) modTime)
            (some (exifWarning path)), true)

/-- Whole per-candidate worker body (planner.go lines 213-259).  The
second component records whether `Exif.DateTimeOriginal` was invoked,
so that the fast-path claim is stated directly. -/
def processPath (p : Planner) (sourceDir : String) (sd ed : Option Int)
    (path : String) : WorkerOutcome × Bool :=
  match p.fs.statRes path with
  | Except.error e => (WorkerOutcome.fatal e, false)
  | Except.ok modTime =>
    let isRAW := IsRawExtension (filepathExt path)
    if beforeOpt modTime sd then (WorkerOutcome.skipped isRAW, false)
    else processExif p sourceDir sd ed path modTime isRAW

/-- Result-collection loop of `scan` (planner.go lines 274-302): abort
on the first fatal result, otherwise accumulate metadata, warnings and
the RAW date-skip counter in arrival order. -/
def collect : List (WorkerOutcome × Bool) → Except String (List FileMeta × List String × Nat)
  | [] => Except.ok ([], [], 0)
  | r :: rest =>
    match r.1 with
    | WorkerOutcome.fatal e => Except.error e
    | WorkerOutcome.skipped isRAW =>
      (collect rest).map (fun t => (t.1, t.2.1, if isRAW then t.2.2 + 1 else t.2.2))
    | WorkerOutcome.included m w =>
      (collect rest).map (fun t =>
        (m :: t.1, (match w with | some s => s :: t.2.1 | none => t.2.1), t.2.2))

/-- Aggregate scan output: the six return values of `Planner.scan`
minus the error. -/
structure ScanOut where
  metas : List FileMeta
  warnings : List String
  skippedJPEGs : Nat
  skippedRAWsDate : Nat
  skippedRAWsDupl : Nat
deriving DecidableEq, Repr

/-- Embedding of `Planner.scan` (planner.go lines 124-305), with the
worker results collected in submission order (the concrete schedule;
order-sensitivity is analysed through permutations in the theorems). -/
def scan (p : Planner) (sourceDir targetDir : String) (sd ed : Option Int) :
    Except String ScanOut :=
  match walkPhase p.fs.walk with
  | Except.error e => Except.error e
  | Except.ok t =>
    match collect (((phase2raw p sourceDir targetDir t.1).1 ++
        (phase2jpeg p sourceDir targetDir t.2.2 t.2.1).1).map (processPath p sourceDir sd ed)) with
    | Except.error e => Except.error e
    | Except.ok u =>
      Except.ok ⟨u.1, u.2.1, (phase2jpeg p sourceDir targetDir t.2.2 t.2.1).2, u.2.2,
        (phase2raw p sourceDir targetDir t.1).2⟩

/-- Character-wise lexicographic comparison on character lists: the
order Go's string `<` uses, in executable form (equivalent to the
`List.lt` underlying Lean's `String` order, see `charListLt_iff`). -/
def charListLt : List Char → List Char → Bool
  | [], [] => false
  | [], _ :: _ => true
  | _ :: _, [] => false
  | a :: as, b :: bs =>
    if a < b then true else if a = b then charListLt as bs else false

/-- Comparator of the `sort.Slice` call in `Plan` (planner.go lines
59-64): capture time ascending, ties broken by display name. -/
def lessMeta (a b : FileMeta) : Bool :=
  if a.TakenAt = b.TakenAt then charListLt a.Name.data b.Name.data
  else decide (a.TakenAt < b.TakenAt)

/-- Non-strict order induced by the comparator: `a` need not come after
`b`.  A sequence is a valid `sort.Slice` result exactly when adjacent
elements are related by it. -/
def MetaLE (a b : FileMeta) : Prop := lessMeta b a = false

instance : DecidableRel MetaLE := fun _ _ => inferInstanceAs (Decidable (_ = false))

/-- Sorting step of `Plan`, embedded as insertion sort by the Go
comparator. -/
def sortMetas (l : List FileMeta) : List FileMeta :=
  List.insertionSort MetaLE l

/-- Item-building loop of `Plan` (planner.go lines 66-82): resolve each
target path and count RAW / JPEG classifications. -/
def buildItems (targetDir : String) : List FileMeta → List CopyItem × Nat × Nat
  | [] => ([], 0, 0)
  | m :: rest =>
    let r := buildItems targetDir rest
    let item : CopyItem := { FileMeta := m, TargetPath := joinPath targetDir m.RelativePath }
    (item :: r.1,
     (if m.IsRAW then r.2.1 + 1 else r.2.1),
     (if m.IsRAW then r.2.2 else if m.IsJPEG then r.2.2 + 1 else r.2.2))

/-- Items of the final plan for a given arrival order of surviving
metadata records (sorting then target-path resolution). -/
def planItems (targetDir : String) (metas : List FileMeta) : List CopyItem :=
  (buildItems targetDir (sortMetas metas)).1

/-- Override-detection loop of `Plan` (planner.go lines 88-103):
executed only when overrides are allowed; any `Exists` error aborts
planning. -/
def detectOverrides (p : Planner) : List CopyItem → Except String (List CopyItem)
  | [] => Except.ok []
  | item :: rest =>
    let er := p.fs.existsRes item.TargetPath
    match er.2 with
    | some e => Except.error e
    | none => (detectOverrides p rest).map (fun os => if er.1 then item :: os else os)

/-- Running-minimum step of `deriveRange` (`item.FileMeta.TakenAt.Before(min)`). -/
def minStep (m : Int) (it : CopyItem) : Int :=
  if it.FileMeta.TakenAt < m then it.FileMeta.TakenAt else m

/-- Running-maximum step of `deriveRange` (`item.FileMeta.TakenAt.After(max)`). -/
def maxStep (m : Int) (it : CopyItem) : Int :=
  if m < it.FileMeta.TakenAt then it.FileMeta.TakenAt else m

/-- Embedding of `deriveRange` (planner.go lines 307-325). -/
def deriveRange (items : List CopyItem) (sd ed : Option Int) : Option Int × Option Int :=
  if sd.isSome || ed.isSome then (sd, ed)
  else
    match items with
    | [] => (none, none)
    | item :: rest =>
      (some (rest.foldl minStep item.FileMeta.TakenAt),
       some (rest.foldl maxStep item.FileMeta.TakenAt))

/-- Successful-return record of `Planner.Plan` (planner.go lines
105-121), assembled from the scan output and the detected overrides. -/
def planOf (targetDir : String) (sd ed : Option Int) (s : ScanOut)
    (overrides : List CopyItem) : CopyPlan :=
  let bi := buildItems targetDir (sortMetas s.metas)
  let range := deriveRange bi.1 sd ed
  { Items := bi.1
    OverrideItems := overrides
    SkippedJPEGs := s.skippedJPEGs
    SkippedRAWsDate := s.skippedRAWsDate
    SkippedRAWsDupl := s.skippedRAWsDupl
    RangeStart := range.1
    RangeEnd := range.2
    RawCount := bi.2.1
    JpegCount := bi.2.2
    RawOverrides := overrides.countP (fun it => it.FileMeta.IsRAW)
    JpegOverrides := overrides.countP (fun it => !it.FileMeta.IsRAW && it.FileMeta.IsJPEG)
    Warnings := s.warnings }

/-- Embedding of `Planner.Plan` (planner.go lines 45-122), returning
the Go `(domain.CopyPlan, error)` pair: the zero plan together with the
error on every failure path. -/
def Planner.Plan (p : Planner) (sourceDir targetDir : String) (sd ed : Option Int) :
    CopyPlan × Option String :=
  match scan p sourceDir targetDir sd ed with
  | Except.error e => (emptyCopyPlan, some e)
  | Except.ok s =>
    match (if p.allowOverride
           then detectOverrides p (buildItems targetDir (sortMetas s.metas)).1
           else Except.ok []) with
    | Except.error e => (emptyCopyPlan, some e)
    | Except.ok overrides => (planOf targetDir sd ed s overrides, none)

/-- Copy loop of `Executor.Execute` (executor.go lines 39-52): skip
items whose target is in the overwrite set, attempt the others in
order, abort on the first copy error.  `copyRes src dst` is the
injected `FS.CopyFile` result; the returned list records the copies
performed, in order, modelling the files present on disk afterwards. -/
def execLoop (overrideTargets : List String) (copyRes : String → String → Option String) :
    List CopyItem → List CopyItem × Option String
  | [] => ([], none)
  | item :: rest =>
    if overrideTargets.contains item.TargetPath then execLoop overrideTargets copyRes rest
    else
      match copyRes item.FileMeta.SourcePath item.TargetPath with
      | some e => ([], some e)
      | none =>
        let r := execLoop overrideTargets copyRes rest
        (item :: r.1, r.2)

/-- Embedding of `Executor.Execute` (executor.go lines 16-53): the
overwrite set is built from `OverrideItems` target paths only when
overrides are excluded from this execution.  Cancellation is not
modelled. -/
def Execute (plan : CopyPlan) (includeOverrides : Bool)
    (copyRes : String → String → Option String) : List CopyItem × Option String :=
  let overrideTargets :=
    if includeOverrides then [] else plan.OverrideItems.map (fun it => it.TargetPath)
  execLoop overrideTargets copyRes plan.Items

/-! Spec-side characterisations of the scan phases. -/

/-- Walked file paths classified as RAW (the `rawPaths` accumulator of
phase 1, expressed as a selection over the walk sequence). -/
def rawWalkPaths (entries : List FSEntry) : List String :=
  entries.filterMap (fun e =>
    if !e.isDir && IsRawExtension (filepathExt (filepathBase e.path)) then some e.path else none)

/-- Walked file paths classified as JPEG (reached only when the RAW
test failed, mirroring the else-if of phase 1). -/
def jpegWalkPaths (entries : List FSEntry) : List String :=
  entries.filterMap (fun e =>
    if !e.isDir && !IsRawExtension (filepathExt (filepathBase e.path))
        && IsJpegExtension (filepathExt (filepathBase e.path)) then some e.path else none)

/-- Dedup keys contributed to the RAW base-name set during phase 1. -/
def rawBaseKeys (entries : List FSEntry) : List String :=
  entries.filterMap (fun e =>
    if !e.isDir && IsRawExtension (filepathExt (filepathBase e.path))
    then some (baseNameKey (filepathBase e.path)) else none)

/-- RAW-counterpart test a JPEG path is subjected to in phase 2. -/
def hasRawCounterpart (entries : List FSEntry) (path : String) : Bool :=
  (rawBaseKeys entries).contains (baseNameKey (filepathBase path))

theorem walkPhase_eq_of_noErr : ∀ (entries : List FSEntry),
    (∀ e ∈ entries, e.walkErr = none) →
    walkPhase entries = Except.ok (rawWalkPaths entries, jpegWalkPaths entries, rawBaseKeys entries)
  | [], _ => by simp [walkPhase, rawWalkPaths, jpegWalkPaths, rawBaseKeys]
  | e :: rest, h => by
    have herr : e.walkErr = none := h e (List.mem_cons_self e rest)
    have ihrest := walkPhase_eq_of_noErr rest (fun x hx => h x (List.mem_cons_of_mem e hx))
    simp only [walkPhase, herr]
    rw [ihrest]
    simp only [Except.map]
    simp only [rawWalkPaths, jpegWalkPaths, rawBaseKeys, List.filterMap_cons]
    by_cases hdir : e.isDir = true
    · simp [hdir]
    · simp only [Bool.not_eq_true] at hdir
      by_cases hraw : IsRawExtension (filepathExt (filepathBase e.path)) = true
      · simp [hdir, hraw]
      · simp only [Bool.not_eq_true] at hraw
        by_cases hjpeg : IsJpegExtension (filepathExt (filepathBase e.path)) = true
        · simp [hdir, hraw, hjpeg]
        · simp only [Bool.not_eq_true] at hjpeg
          simp [hdir, hraw, hjpeg]

theorem walkPhase_ok_noErr : ∀ (entries : List FSEntry)
    (t : List String × List String × List String), walkPhase entries = Except.ok t →
    ∀ e ∈ entries, e.walkErr = none
  | [], _, _ => by simp
  | e :: rest, t, h => by
    rw [walkPhase] at h
    cases herr : e.walkErr with
    | some err => rw [herr] at h; simp at h
    | none =>
      rw [herr] at h
      intro x hx
      rcases List.mem_cons.mp hx with rfl | hx'
      · exact herr
      · by_cases hdir : e.isDir = true
        · rw [if_pos hdir] at h
          exact walkPhase_ok_noErr rest t h x hx'
        · rw [if_neg hdir] at h
          by_cases hraw : IsRawExtension (filepathExt (filepathBase e.path)) = true
          · rw [if_pos hraw] at h
            cases hw : walkPhase rest with
            | error e2 => rw [hw] at h; simp [Except.map] at h
            | ok t2 => exact walkPhase_ok_noErr rest t2 hw x hx'
          · rw [if_neg hraw] at h
            by_cases hjpeg : IsJpegExtension (filepathExt (filepathBase e.path)) = true
            · rw [if_pos hjpeg] at h
              cases hw : walkPhase rest with
              | error e2 => rw [hw] at h; simp [Except.map] at h
              | ok t2 => exact walkPhase_ok_noErr rest t2 hw x hx'
            · rw [if_neg hjpeg] at h
              exact walkPhase_ok_noErr rest t h x hx'

theorem walkPhase_ok_inv {entries : List FSEntry}
    {t : List String × List String × List String} (h : walkPhase entries = Except.ok t) :
    (∀ e ∈ entries, e.walkErr = none) ∧
      t = (rawWalkPaths entries, jpegWalkPaths entries, rawBaseKeys entries) := by
  have hne := walkPhase_ok_noErr entries t h
  refine ⟨hne, ?_⟩
  rw [walkPhase_eq_of_noErr entries hne] at h
  exact (Except.ok.injEq _ _).mp h.symm

theorem phase2raw_eq (p : Planner) (sourceDir targetDir : String) :
    ∀ l : List String, phase2raw p sourceDir targetDir l =
      (l.filter (fun q => shouldIncludeSource p sourceDir targetDir q),
       l.countP (fun q => !shouldIncludeSource p sourceDir targetDir q))
  | [] => by simp [phase2raw]
  | q :: rest => by
    have ih := phase2raw_eq p sourceDir targetDir rest
    by_cases hq : shouldIncludeSource p sourceDir targetDir q = true
    · simp [phase2raw, ih, hq, List.filter_cons, List.countP_cons]
    · simp only [Bool.not_eq_true] at hq
      simp [phase2raw, ih, hq, List.filter_cons, List.countP_cons]

/-- Survival test a JPEG candidate passes in phase 2: no RAW
counterpart and the target-existence pre-filter admits it. -/
def jpegKept (p : Planner) (sourceDir targetDir : String) (rawBases : List String)
    (q : String) : Bool :=
  !rawBases.contains (baseNameKey (filepathBase q)) && shouldIncludeSource p sourceDir targetDir q

theorem phase2jpeg_eq (p : Planner) (sourceDir targetDir : String) (rawBases : List String) :
    ∀ l : List String, phase2jpeg p sourceDir targetDir rawBases l =
      (l.filter (fun q => jpegKept p sourceDir targetDir rawBases q),
       l.countP (fun q => rawBases.contains (baseNameKey (filepathBase q))))
  | [] => by simp [phase2jpeg]
  | q :: rest => by
    have ih := phase2jpeg_eq p sourceDir targetDir rawBases rest
    by_cases hc : baseNameKey (filepathBase q) ∈ rawBases
    · simp [phase2jpeg, ih, hc, jpegKept, List.filter_cons, List.countP_cons]
    · by_cases hq : shouldIncludeSource p sourceDir targetDir q = true
      · simp [phase2jpeg, ih, hc, hq, jpegKept, List.filter_cons, List.countP_cons]
      · simp only [Bool.not_eq_true] at hq
        simp [phase2jpeg, ih, hc, hq, jpegKept, List.filter_cons, List.countP_cons]

/-! Spec-side characterisation of the result-collection loop. -/

/-- Fatal-result test on a worker outcome. -/
def outcomeFatalB (r : WorkerOutcome × Bool) : Bool :=
  match r.1 with
  | WorkerOutcome.fatal _ => true
  | _ => false

/-- Metadata selector used to describe `collect`. -/
def includedSel (r : WorkerOutcome × Bool) : Option FileMeta :=
  match r.1 with
  | WorkerOutcome.included m _ => some m
  | _ => none

/-- Warning selector used to describe `collect`. -/
def warningSel (r : WorkerOutcome × Bool) : Option String :=
  match r.1 with
  | WorkerOutcome.included _ w => w
  | _ => none

/-- RAW-date-skip test used to describe `collect`. -/
def dateSkipRawB (r : WorkerOutcome × Bool) : Bool :=
  match r.1 with
  | WorkerOutcome.skipped true => true
  | _ => false

/-- Metadata records an all-successful collection run accumulates. -/
def includedMetas (rs : List (WorkerOutcome × Bool)) : List FileMeta :=
  rs.filterMap includedSel

/-- Warnings an all-successful collection run accumulates. -/
def collectWarnings (rs : List (WorkerOutcome × Bool)) : List String :=
  rs.filterMap warningSel

/-- Value of the RAW date-skip counter over a result sequence. -/
def dateSkipRawCount (rs : List (WorkerOutcome × Bool)) : Nat :=
  rs.countP dateSkipRawB

theorem collect_eq_of_noFatal : ∀ (rs : List (WorkerOutcome × Bool)),
    (∀ r ∈ rs, outcomeFatalB r = false) →
    collect rs = Except.ok (includedMetas rs, collectWarnings rs, dateSkipRawCount rs)
  | [], _ => by simp [collect, includedMetas, collectWarnings, dateSkipRawCount]
  | r :: rest, h => by
    have ih := collect_eq_of_noFatal rest (fun x hx => h x (List.mem_cons_of_mem r hx))
    have hr := h r (List.mem_cons_self r rest)
    cases hro : r.1 with
    | fatal e => rw [outcomeFatalB, hro] at hr; cases hr
    | skipped isRAW =>
      rw [collect, hro, ih]
      simp only [Except.map]
      simp [includedMetas, collectWarnings, dateSkipRawCount, List.filterMap_cons,
        List.countP_cons, includedSel, warningSel, dateSkipRawB, hro]
      cases isRAW <;> simp [dateSkipRawB]
    | included m w =>
      rw [collect, hro, ih]
      simp only [Except.map]
      simp [includedMetas, collectWarnings, dateSkipRawCount, List.filterMap_cons,
        List.countP_cons, includedSel, warningSel, dateSkipRawB, hro]
      cases w <;> simp

theorem collect_ok_noFatal : ∀ (rs : List (WorkerOutcome × Bool))
    (t : List FileMeta × List String × Nat), collect rs = Except.ok t →
    ∀ r ∈ rs, outcomeFatalB r = false
  | [], _, _ => by simp
  | r :: rest, t, h => by
    intro x hx
    cases hro : r.1 with
    | fatal e => rw [collect, hro] at h; simp at h
    | skipped isRAW =>
      rw [collect, hro] at h
      rcases List.mem_cons.mp hx with rfl | hx'
      · rw [outcomeFatalB, hro]
      · cases hc : collect rest with
        | error e2 => rw [hc] at h; simp [Except.map] at h
        | ok t2 => exact collect_ok_noFatal rest t2 hc x hx'
    | included m w =>
      rw [collect, hro] at h
      rcases List.mem_cons.mp hx with rfl | hx'
      · rw [outcomeFatalB, hro]
      · cases hc : collect rest with
        | error e2 => rw [hc] at h; simp [Except.map] at h
        | ok t2 => exact collect_ok_noFatal rest t2 hc x hx'

theorem collect_ok_inv {rs : List (WorkerOutcome × Bool)}
    {t : List FileMeta × List String × Nat} (h : collect rs = Except.ok t) :
    (∀ r ∈ rs, outcomeFatalB r = false) ∧
      t = (includedMetas rs, collectWarnings rs, dateSkipRawCount rs) := by
  have hnf := collect_ok_noFatal rs t h
  refine ⟨hnf, ?_⟩
  rw [collect_eq_of_noFatal rs hnf] at h
  exact (Except.ok.injEq _ _).mp h.symm

theorem collect_error_append (rs1 : List (WorkerOutcome × Bool))
    (r : WorkerOutcome × Bool) (rs2 : List (WorkerOutcome × Bool)) (e : String)
    (h1 : ∀ x ∈ rs1, outcomeFatalB x = false) (h2 : r.1 = WorkerOutcome.fatal e) :
    collect (rs1 ++ r :: rs2) = Except.error e := by
  induction rs1 with
  | nil => simp only [List.nil_append]; rw [collect, h2]
  | cons x rest ih =>
    have hx := h1 x (List.mem_cons_self x rest)
    have ih' := ih (fun y hy => h1 y (List.mem_cons_of_mem x hy))
    cases hxo : x.1 with
    | fatal e2 => rw [outcomeFatalB, hxo] at hx; cases hx
    | skipped isRAW =>
      simp only [List.cons_append]
      rw [collect, hxo, ih']
      simp [Except.map]
    | included m w =>
      simp only [List.cons_append]
      rw [collect, hxo, ih']
      simp [Except.map]

theorem pathsToProcess_eq_of_noErr (p : Planner) (sourceDir targetDir : String)
    (hne : ∀ e ∈ p.fs.walk, e.walkErr = none) :
    pathsToProcess p sourceDir targetDir =
      (rawWalkPaths p.fs.walk).filter (fun q => shouldIncludeSource p sourceDir targetDir q) ++
      (jpegWalkPaths p.fs.walk).filter
        (fun q => jpegKept p sourceDir targetDir (rawBaseKeys p.fs.walk) q) := by
  simp only [pathsToProcess, walkPhase_eq_of_noErr p.fs.walk hne, phase2raw_eq, phase2jpeg_eq]

theorem scan_ok_inv {p : Planner} {sourceDir targetDir : String} {sd ed : Option Int}
    {s : ScanOut} (h : scan p sourceDir targetDir sd ed = Except.ok s) :
    (∀ e ∈ p.fs.walk, e.walkErr = none) ∧
    (∀ r ∈ (pathsToProcess p sourceDir targetDir).map (processPath p sourceDir sd ed),
        outcomeFatalB r = false) ∧
    s = ⟨includedMetas ((pathsToProcess p sourceDir targetDir).map (processPath p sourceDir sd ed)),
         collectWarnings ((pathsToProcess p sourceDir targetDir).map (processPath p sourceDir sd ed)),
         (jpegWalkPaths p.fs.walk).countP (fun q => hasRawCounterpart p.fs.walk q),
         dateSkipRawCount ((pathsToProcess p sourceDir targetDir).map (processPath p sourceDir sd ed)),
         (rawWalkPaths p.fs.walk).countP
           (fun q => !shouldIncludeSource p sourceDir targetDir q)⟩ := by
  unfold scan at h
  cases hw : walkPhase p.fs.walk with
  | error e => rw [hw] at h; simp at h
  | ok t =>
    rw [hw] at h
    obtain ⟨hne, ht⟩ := walkPhase_ok_inv hw
    subst ht
    simp only [phase2raw_eq, phase2jpeg_eq] at h
    have hpaths := pathsToProcess_eq_of_noErr p sourceDir targetDir hne
    cases hc : collect ((
        (rawWalkPaths p.fs.walk).filter (fun q => shouldIncludeSource p sourceDir targetDir q) ++
        (jpegWalkPaths p.fs.walk).filter
          (fun q => jpegKept p sourceDir targetDir (rawBaseKeys p.fs.walk) q)).map
        (processPath p sourceDir sd ed)) with
    | error e => rw [hc] at h; simp at h
    | ok u =>
      rw [hc] at h
      simp only [Except.ok.injEq] at h
      obtain ⟨hnf, hu⟩ := collect_ok_inv hc
      subst hu
      rw [hpaths]
      refine ⟨hne, hnf, ?_⟩
      rw [← h]
      simp [hasRawCounterpart]

theorem scan_error_of_walkError {p : Planner} {sourceDir targetDir : String}
    {sd ed : Option Int} {e : String} (h : walkPhase p.fs.walk = Except.error e) :
    scan p sourceDir targetDir sd ed = Except.error e := by
  unfold scan
  rw [h]

theorem Plan_eq_of_scanError {p : Planner} {sourceDir targetDir : String}
    {sd ed : Option Int} {e : String} (h : scan p sourceDir targetDir sd ed = Except.error e) :
    Planner.Plan p sourceDir targetDir sd ed = (emptyCopyPlan, some e) := by
  unfold Planner.Plan
  rw [h]

theorem Plan_ok_inv {p : Planner} {sourceDir targetDir : String} {sd ed : Option Int}
    {plan : CopyPlan} (h : Planner.Plan p sourceDir targetDir sd ed = (plan, none)) :
    ∃ s overrides, scan p sourceDir targetDir sd ed = Except.ok s ∧
      (if p.allowOverride
       then detectOverrides p (buildItems targetDir (sortMetas s.metas)).1
       else Except.ok []) = Except.ok overrides ∧
      plan = planOf targetDir sd ed s overrides := by
  unfold Planner.Plan at h
  cases hs : scan p sourceDir targetDir sd ed with
  | error e => rw [hs] at h; simp at h
  | ok s =>
    simp only [hs] at h
    cases ho : (if p.allowOverride = true
        then detectOverrides p (buildItems targetDir (sortMetas s.metas)).1
        else Except.ok []) with
    | error e => simp only [ho] at h; simp at h
    | ok ovs =>
      simp only [ho] at h
      simp only [Prod.mk.injEq] at h
      exact ⟨s, ovs, rfl, ho, h.1.symm⟩

/-! Order-theoretic description of the sorting comparator. -/

/-- Sort key of a metadata record: capture time, then display name,
lexicographically. -/
def metaKey (a : FileMeta) : Int ×ₗ String :=
  toLex (a.TakenAt, a.Name)

theorem charListLt_iff : ∀ (a b : List Char), charListLt a b = true ↔ a < b
  | [], [] => by
    constructor
    · intro h; cases h
    · intro h; cases h
  | [], b :: bs => by
    constructor
    · intro _; exact List.Lex.nil
    · intro _; rfl
  | a :: as, [] => by
    constructor
    · intro h; cases h
    · intro h; cases h
  | a :: as, b :: bs => by
    by_cases hab : a < b
    · constructor
      · intro _; exact List.Lex.rel hab
      · intro _; simp [charListLt, hab]
    · by_cases heq : a = b
      · subst heq
        have ih := charListLt_iff as bs
        constructor
        · intro h
          simp only [charListLt, if_neg hab, if_pos rfl] at h
          exact List.Lex.cons (ih.mp h)
        · intro h
          simp only [charListLt, if_neg hab, if_pos rfl]
          cases h with
          | cons h2 => exact ih.mpr h2
          | rel h2 => exact absurd h2 hab
      · constructor
        · intro h
          simp [charListLt, hab, heq] at h
        · intro h
          cases h with
          | cons h2 => exact absurd rfl heq
          | rel h2 => exact absurd h2 hab

theorem charListLt_str {a b : String} : charListLt a.data b.data = true ↔ a < b := by
  rw [String.lt_iff_toList_lt]
  exact charListLt_iff a.data b.data

theorem lessMeta_iff {a b : FileMeta} : lessMeta a b = true ↔ metaKey a < metaKey b := by
  unfold lessMeta metaKey
  rw [Prod.Lex.lt_iff]
  by_cases h : a.TakenAt = b.TakenAt
  · rw [if_pos h, charListLt_str]
    constructor
    · intro hn
      exact Or.inr ⟨h, hn⟩
    · rintro (hlt | ⟨_, hn⟩)
      · rw [h] at hlt
        exact absurd hlt (lt_irrefl _)
      · exact hn
  · rw [if_neg h, decide_eq_true_eq]
    constructor
    · exact fun ht => Or.inl ht
    · rintro (hlt | ⟨heq, _⟩)
      · exact hlt
      · exact absurd heq h

theorem MetaLE_iff {a b : FileMeta} : MetaLE a b ↔ metaKey a ≤ metaKey b := by
  unfold MetaLE
  rw [← Bool.not_eq_true, lessMeta_iff, not_lt]

instance : IsTotal FileMeta MetaLE :=
  ⟨fun a b => by
    rcases le_total (metaKey a) (metaKey b) with h | h
    · exact Or.inl (MetaLE_iff.mpr h)
    · exact Or.inr (MetaLE_iff.mpr h)⟩

instance : IsTrans FileMeta MetaLE :=
  ⟨fun _ _ _ hab hbc => MetaLE_iff.mpr (le_trans (MetaLE_iff.mp hab) (MetaLE_iff.mp hbc))⟩

theorem sortMetas_sorted (l : List FileMeta) : List.Sorted MetaLE (sortMetas l) :=
  List.sorted_insertionSort MetaLE l

theorem sortMetas_perm (l : List FileMeta) : List.Perm (sortMetas l) l :=
  List.perm_insertionSort MetaLE l

theorem metaKey_eq_parts {a b : FileMeta} (h : metaKey a = metaKey b) :
    a.TakenAt = b.TakenAt ∧ a.Name = b.Name := by
  unfold metaKey at h
  have h' : (a.TakenAt, a.Name) = (b.TakenAt, b.Name) := h
  simpa [Prod.ext_iff] using h'

theorem sorted_perm_unique : ∀ (l1 l2 : List FileMeta), List.Perm l1 l2 →
    List.Sorted MetaLE l1 → List.Sorted MetaLE l2 →
    (∀ a ∈ l1, ∀ b ∈ l1, MetaLE a b → MetaLE b a → a = b) → l1 = l2
  | [], l2, hp, _, _, _ => (hp.symm.eq_nil).symm ▸ rfl
  | x :: xs, [], hp, _, _, _ => absurd hp.eq_nil (by simp)
  | x :: xs, y :: ys, hp, hs1, hs2, hanti => by
    have hy1 : y ∈ x :: xs := hp.symm.subset (List.mem_cons_self y ys)
    have hxy : x = y := by
      rcases List.mem_cons.mp (hp.subset (List.mem_cons_self x xs)) with hh | hx2
      · exact hh
      rcases List.mem_cons.mp hy1 with hh | hy1'
      · exact hh.symm
      have h1 : MetaLE x y := (List.sorted_cons.mp hs1).1 y hy1'
      have h2 : MetaLE y x := (List.sorted_cons.mp hs2).1 x hx2
      exact hanti x (List.mem_cons_self x xs) y hy1 h1 h2
    subst hxy
    have hp' : List.Perm xs ys := hp.cons_inv
    have hrec := sorted_perm_unique xs ys hp' (List.sorted_cons.mp hs1).2
      (List.sorted_cons.mp hs2).2
      (fun a ha b hb hab hba =>
        hanti a (List.mem_cons_of_mem x ha) b (List.mem_cons_of_mem x hb) hab hba)
    rw [hrec]

theorem sortMetas_eq_of_perm {l1 l2 : List FileMeta} (hp : List.Perm l1 l2)
    (hnt : ∀ a ∈ l1, ∀ b ∈ l1, a.TakenAt = b.TakenAt → a.Name = b.Name → a = b) :
    sortMetas l1 = sortMetas l2 := by
  have hperm : List.Perm (sortMetas l1) (sortMetas l2) :=
    ((sortMetas_perm l1).trans hp).trans (sortMetas_perm l2).symm
  apply sorted_perm_unique _ _ hperm (sortMetas_sorted l1) (sortMetas_sorted l2)
  intro a ha b hb hab hba
  have hk := le_antisymm (MetaLE_iff.mp hab) (MetaLE_iff.mp hba)
  obtain ⟨h1, h2⟩ := metaKey_eq_parts hk
  exact hnt a ((sortMetas_perm l1).subset ha) b ((sortMetas_perm l1).subset hb) h1 h2

theorem buildItems_eq (targetDir : String) : ∀ l : List FileMeta,
    buildItems targetDir l =
      (l.map (fun m => { FileMeta := m, TargetPath := joinPath targetDir m.RelativePath }),
       l.countP (fun m => m.IsRAW),
       l.countP (fun m => !m.IsRAW && m.IsJPEG))
  | [] => by simp [buildItems]
  | m :: rest => by
    have ih := buildItems_eq targetDir rest
    cases hR : m.IsRAW with
    | true => simp [buildItems, ih, hR, List.countP_cons]
    | false =>
      cases hJ : m.IsJPEG with
      | true => simp [buildItems, ih, hR, hJ, List.countP_cons]
      | false => simp [buildItems, ih, hR, hJ, List.countP_cons]

theorem countP_raw_add_jpeg : ∀ {l : List FileMeta},
    (∀ m ∈ l, m.IsRAW = true ∨ m.IsJPEG = true) →
    l.countP (fun m => m.IsRAW) + l.countP (fun m => !m.IsRAW && m.IsJPEG) = l.length
  | [], _ => by simp
  | m :: rest, h => by
    have ih := countP_raw_add_jpeg (fun x hx => h x (List.mem_cons_of_mem m hx))
    have hm := h m (List.mem_cons_self m rest)
    cases hR : m.IsRAW with
    | true =>
      simp [List.countP_cons, hR]
      omega
    | false =>
      have hJ : m.IsJPEG = true := by
        rcases hm with hm | hm
        · rw [hR] at hm; cases hm
        · exact hm
      simp [List.countP_cons, hR, hJ]
      omega

theorem detectOverrides_ok_inv (p : Planner) : ∀ (items os : List CopyItem),
    detectOverrides p items = Except.ok os →
    os = items.filter (fun it => (p.fs.existsRes it.TargetPath).1) ∧
      ∀ it ∈ items, (p.fs.existsRes it.TargetPath).2 = none
  | [], os, h => by
    rw [detectOverrides] at h
    simp only [Except.ok.injEq] at h
    simp [← h]
  | item :: rest, os, h => by
    rw [detectOverrides] at h
    cases he : (p.fs.existsRes item.TargetPath).2 with
    | some e => rw [he] at h; simp at h
    | none =>
      rw [he] at h
      cases hr : detectOverrides p rest with
      | error e2 => rw [hr] at h; simp [Except.map] at h
      | ok os2 =>
        rw [hr] at h
        obtain ⟨ih1, ih2⟩ := detectOverrides_ok_inv p rest os2 hr
        simp only [Except.map, Except.ok.injEq] at h
        constructor
        · rw [← h, ih1]
          cases hex : (p.fs.existsRes item.TargetPath).1 with
          | true => simp [List.filter_cons, hex]
          | false => simp [List.filter_cons, hex]
        · intro it hit
          rcases List.mem_cons.mp hit with rfl | hit'
          · exact he
          · exact ih2 it hit'

/-! Facts about the extension classifiers. -/

theorem IsRawExtension_toLower {x : String} (h : IsRawExtension x = true) :
    IsRawExtension (toLowerStr x) = true := by
  unfold IsRawExtension at h ⊢
  have hx : toLowerStr x = ".arw" ∨ toLowerStr x = ".cr2" ∨ toLowerStr x = ".cr3" ∨
      toLowerStr x = ".nef" ∨ toLowerStr x = ".raf" ∨ toLowerStr x = ".rw2" ∨
      toLowerStr x = ".orf" ∨ toLowerStr x = ".dng" := by
    simpa [rawExtensions] using h
  rcases hx with hx | hx | hx | hx | hx | hx | hx | hx <;> rw [hx] <;> decide

theorem IsJpegExtension_toLower {x : String} (h : IsJpegExtension x = true) :
    IsJpegExtension (toLowerStr x) = true := by
  unfold IsJpegExtension at h ⊢
  have hx : toLowerStr x = ".jpg" ∨ toLowerStr x = ".jpeg" := by
    simpa [jpegExtensions] using h
  rcases hx with hx | hx <;> rw [hx] <;> decide

theorem raw_jpeg_disjoint {x : String} (h1 : IsRawExtension x = true)
    (h2 : IsJpegExtension x = true) : False := by
  unfold IsRawExtension at h1
  unfold IsJpegExtension at h2
  have hx : toLowerStr x = ".arw" ∨ toLowerStr x = ".cr2" ∨ toLowerStr x = ".cr3" ∨
      toLowerStr x = ".nef" ∨ toLowerStr x = ".raf" ∨ toLowerStr x = ".rw2" ∨
      toLowerStr x = ".orf" ∨ toLowerStr x = ".dng" := by
    simpa [rawExtensions] using h1
  have hy : toLowerStr x = ".jpg" ∨ toLowerStr x = ".jpeg" := by
    simpa [jpegExtensions] using h2
  rcases hx with hx | hx | hx | hx | hx | hx | hx | hx <;>
    rcases hy with hy | hy <;>
    (rw [hx] at hy; exact absurd hy (by decide))

/-! Facts about the per-candidate worker computation. -/

theorem processPath_statError {p : Planner} {sourceDir : String} {sd ed : Option Int}
    {path e : String} (hstat : p.fs.statRes path = Except.error e) :
    processPath p sourceDir sd ed path = (WorkerOutcome.fatal e, false) := by
  unfold processPath
  rw [hstat]

theorem processPath_fastSkip {p : Planner} {sourceDir : String} {s : Int} {ed : Option Int}
    {path : String} {mt : Int} (hstat : p.fs.statRes path = Except.ok mt) (hlt : mt < s) :
    processPath p sourceDir (some s) ed path =
      (WorkerOutcome.skipped (IsRawExtension (filepathExt path)), false) := by
  unfold processPath
  rw [hstat]
  simp [beforeOpt, hlt]

theorem processPath_included_of {p : Planner} {sourceDir : String} {sd ed : Option Int}
    {path : String} {mt t : Int} (hstat : p.fs.statRes path = Except.ok mt)
    (hfast : beforeOpt mt sd = false) (hex : p.exif path = ExifRes.ok t)
    (hb : beforeOpt t sd = false) (ha : afterOpt t ed = false) :
    processPath p sourceDir sd ed path =
      (WorkerOutcome.included (NewFileMeta path (relOrBase sourceDir path) t) none, true) := by
  unfold processPath
  rw [hstat]
  simp only [hfast, Bool.false_eq_true, if_false]
  unfold processExif
  rw [hex]
  simp [hb, ha]

theorem processPath_included_inv {p : Planner} {sourceDir : String} {sd ed : Option Int}
    {path : String} {m : FileMeta} {w : Option String} {c : Bool}
    (h : processPath p sourceDir sd ed path = (WorkerOutcome.included m w, c)) :
    ∃ t, m = NewFileMeta path (relOrBase sourceDir path) t := by
  unfold processPath at h
  cases hstat : p.fs.statRes path with
  | error e => rw [hstat] at h; simp at h
  | ok mt =>
    rw [hstat] at h
    by_cases hfast : beforeOpt mt sd = true
    · simp [hfast] at h
    · simp only [Bool.not_eq_true] at hfast
      simp only [hfast, Bool.false_eq_true, if_false] at h
      unfold processExif at h
      cases hex : p.exif path with
      | canceled e => rw [hex] at h; simp at h
      | ok t =>
        rw [hex] at h
        by_cases h1 : beforeOpt t sd = true
        · simp [h1] at h
        · by_cases h2 : afterOpt t ed = true
          · simp [h1, h2] at h
          · simp only [Bool.not_eq_true] at h1 h2
            simp only [h1, h2, Bool.false_eq_true, if_false, Prod.mk.injEq,
              WorkerOutcome.included.injEq] at h
            exact ⟨t, h.1.1.symm⟩
      | unavailable =>
        rw [hex] at h
        by_cases h1 : beforeOpt mt sd = true
        · simp [h1] at h
        · by_cases h2 : afterOpt mt ed = true
          · simp [h1, h2] at h
          · simp only [Bool.not_eq_true] at h1 h2
            simp only [h1, h2, Bool.false_eq_true, if_false, Prod.mk.injEq,
              WorkerOutcome.included.injEq] at h
            exact ⟨mt, h.1.1.symm⟩

theorem NewFileMeta_SourcePath (sp rp : String) (t : Int) :
    (NewFileMeta sp rp t).SourcePath = sp := rfl

theorem NewFileMeta_TakenAt (sp rp : String) (t : Int) :
    (NewFileMeta sp rp t).TakenAt = t := rfl

theorem mem_includedMetas {p : Planner} {sourceDir : String} {sd ed : Option Int}
    {paths : List String} {m : FileMeta} :
    m ∈ includedMetas (paths.map (processPath p sourceDir sd ed)) ↔
      ∃ q ∈ paths, ∃ w c, processPath p sourceDir sd ed q = (WorkerOutcome.included m w, c) := by
  unfold includedMetas
  rw [List.mem_filterMap]
  constructor
  · rintro ⟨r, hr, hsel⟩
    rw [List.mem_map] at hr
    obtain ⟨q, hq, hrq⟩ := hr
    subst hrq
    cases hpq : processPath p sourceDir sd ed q with
    | mk o c =>
      rw [hpq] at hsel
      cases o with
      | fatal e => simp [includedSel] at hsel
      | skipped b => simp [includedSel] at hsel
      | included m2 w =>
        simp only [includedSel, Option.some.injEq] at hsel
        subst hsel
        exact ⟨q, hq, w, c, hpq⟩
  · rintro ⟨q, hq, w, c, hpq⟩
    refine ⟨processPath p sourceDir sd ed q, List.mem_map_of_mem _ hq, ?_⟩
    rw [hpq]
    simp [includedSel]

theorem includedMetas_source {p : Planner} {sourceDir : String} {sd ed : Option Int}
    {paths : List String} {m : FileMeta}
    (hm : m ∈ includedMetas (paths.map (processPath p sourceDir sd ed))) :
    m.SourcePath ∈ paths ∧
      ∃ w c, processPath p sourceDir sd ed m.SourcePath = (WorkerOutcome.included m w, c) := by
  obtain ⟨q, hq, w, c, hpq⟩ := mem_includedMetas.mp hm
  have hsrc : m.SourcePath = q := by
    obtain ⟨t, hmeq⟩ := processPath_included_inv hpq
    rw [hmeq, NewFileMeta_SourcePath]
  rw [hsrc]
  exact ⟨hq, w, c, hpq⟩

theorem mem_rawWalkPaths {entries : List FSEntry} {q : String} (h : q ∈ rawWalkPaths entries) :
    IsRawExtension (filepathExt (filepathBase q)) = true := by
  unfold rawWalkPaths at h
  rw [List.mem_filterMap] at h
  obtain ⟨e, _, hsel⟩ := h
  by_cases hc : (!e.isDir && IsRawExtension (filepathExt (filepathBase e.path))) = true
  · rw [if_pos hc] at hsel
    obtain rfl := (Option.some.injEq _ _).mp hsel
    simp only [Bool.and_eq_true] at hc
    exact hc.2
  · rw [if_neg hc] at hsel
    exact Option.noConfusion hsel

theorem mem_jpegWalkPaths {entries : List FSEntry} {q : String} (h : q ∈ jpegWalkPaths entries) :
    IsRawExtension (filepathExt (filepathBase q)) = false ∧
      IsJpegExtension (filepathExt (filepathBase q)) = true := by
  unfold jpegWalkPaths at h
  rw [List.mem_filterMap] at h
  obtain ⟨e, _, hsel⟩ := h
  by_cases hc : (!e.isDir && !IsRawExtension (filepathExt (filepathBase e.path))
      && IsJpegExtension (filepathExt (filepathBase e.path))) = true
  · rw [if_pos hc] at hsel
    obtain rfl := (Option.some.injEq _ _).mp hsel
    simp only [Bool.and_eq_true, Bool.not_eq_true'] at hc
    exact ⟨hc.1.2, hc.2⟩
  · rw [if_neg hc] at hsel
    exact Option.noConfusion hsel

theorem metas_classified {p : Planner} {sourceDir targetDir : String} {sd ed : Option Int}
    (hne : ∀ e ∈ p.fs.walk, e.walkErr = none) :
    ∀ m ∈ includedMetas ((pathsToProcess p sourceDir targetDir).map (processPath p sourceDir sd ed)),
      m.IsRAW = true ∨ m.IsJPEG = true := by
  intro m hm
  obtain ⟨q, hq, w, c, hpq⟩ := mem_includedMetas.mp hm
  obtain ⟨t, rfl⟩ := processPath_included_inv hpq
  rw [pathsToProcess_eq_of_noErr p sourceDir targetDir hne] at hq
  rcases List.mem_append.mp hq with hq | hq
  · left
    have hext := mem_rawWalkPaths (List.mem_filter.mp hq).1
    simp only [NewFileMeta]
    exact IsRawExtension_toLower hext
  · right
    have hext := (mem_jpegWalkPaths (List.mem_filter.mp hq).1).2
    simp only [NewFileMeta]
    exact IsJpegExtension_toLower hext

/-! Facts about the range folds. -/

theorem foldl_minStep_le : ∀ (l : List CopyItem) (a : Int),
    l.foldl minStep a ≤ a ∧ ∀ it ∈ l, l.foldl minStep a ≤ it.FileMeta.TakenAt
  | [], a => ⟨le_refl a, by simp⟩
  | it :: rest, a => by
    obtain ⟨h1, h2⟩ := foldl_minStep_le rest (minStep a it)
    rw [List.foldl_cons]
    refine ⟨le_trans h1 ?_, ?_⟩
    · unfold minStep; split <;> omega
    · intro x hx
      rcases List.mem_cons.mp hx with rfl | hx'
      · refine le_trans h1 ?_
        unfold minStep; split <;> omega
      · exact h2 x hx'

theorem foldl_minStep_mem : ∀ (l : List CopyItem) (a : Int),
    l.foldl minStep a = a ∨ l.foldl minStep a ∈ l.map (fun it => it.FileMeta.TakenAt)
  | [], _ => Or.inl rfl
  | it :: rest, a => by
    rw [List.foldl_cons]
    rcases foldl_minStep_mem rest (minStep a it) with h | h
    · rw [h]
      unfold minStep
      split
      · right; simp
      · left; rfl
    · right
      simp only [List.map_cons, List.mem_cons]
      exact Or.inr h

theorem foldl_maxStep_ge : ∀ (l : List CopyItem) (a : Int),
    a ≤ l.foldl maxStep a ∧ ∀ it ∈ l, it.FileMeta.TakenAt ≤ l.foldl maxStep a
  | [], a => ⟨le_refl a, by simp⟩
  | it :: rest, a => by
    obtain ⟨h1, h2⟩ := foldl_maxStep_ge rest (maxStep a it)
    rw [List.foldl_cons]
    refine ⟨le_trans ?_ h1, ?_⟩
    · unfold maxStep; split <;> omega
    · intro x hx
      rcases List.mem_cons.mp hx with rfl | hx'
      · refine le_trans ?_ h1
        unfold maxStep; split <;> omega
      · exact h2 x hx'

theorem foldl_maxStep_mem : ∀ (l : List CopyItem) (a : Int),
    l.foldl maxStep a = a ∨ l.foldl maxStep a ∈ l.map (fun it => it.FileMeta.TakenAt)
  | [], _ => Or.inl rfl
  | it :: rest, a => by
    rw [List.foldl_cons]
    rcases foldl_maxStep_mem rest (maxStep a it) with h | h
    · rw [h]
      unfold maxStep
      split
      · right; simp
      · left; rfl
    · right
      simp only [List.map_cons, List.mem_cons]
      exact Or.inr h

/-! Executor: separation of the skip filter from the sequential copy loop. -/

/-- Sequential copy over an already-filtered list: all-or-prefix
semantics of the executor loop. -/
def execSpec (copyRes : String → String → Option String) :
    List CopyItem → List CopyItem × Option String
  | [] => ([], none)
  | item :: rest =>
    match copyRes item.FileMeta.SourcePath item.TargetPath with
    | some e => ([], some e)
    | none =>
      let r := execSpec copyRes rest
      (item :: r.1, r.2)

theorem execLoop_eq_execSpec (overrideTargets : List String)
    (copyRes : String → String → Option String) : ∀ l : List CopyItem,
    execLoop overrideTargets copyRes l =
      execSpec copyRes (l.filter (fun it => !overrideTargets.contains it.TargetPath))
  | [] => by simp [execLoop, execSpec]
  | item :: rest => by
    have ih := execLoop_eq_execSpec overrideTargets copyRes rest
    by_cases hc : item.TargetPath ∈ overrideTargets
    · simp [execLoop, List.filter_cons, hc, ih]
    · cases hcopy : copyRes item.FileMeta.SourcePath item.TargetPath with
      | some e => simp [execLoop, execSpec, List.filter_cons, hc, hcopy, ih]
      | none => simp [execLoop, execSpec, List.filter_cons, hc, hcopy, ih]

theorem execSpec_all_ok (copyRes : String → String → Option String) : ∀ l : List CopyItem,
    (∀ it ∈ l, copyRes it.FileMeta.SourcePath it.TargetPath = none) →
    execSpec copyRes l = (l, none)
  | [], _ => rfl
  | item :: rest, h => by
    have hh := h item (List.mem_cons_self item rest)
    rw [execSpec, hh, execSpec_all_ok copyRes rest (fun x hx => h x (List.mem_cons_of_mem item hx))]

theorem execSpec_first_err (copyRes : String → String → Option String) :
    ∀ (pre : List CopyItem) (bad : CopyItem) (post : List CopyItem) (e : String),
    (∀ x ∈ pre, copyRes x.FileMeta.SourcePath x.TargetPath = none) →
    copyRes bad.FileMeta.SourcePath bad.TargetPath = some e →
    execSpec copyRes (pre ++ bad :: post) = (pre, some e)
  | [], bad, post, e, _, hbad => by
    rw [List.nil_append, execSpec, hbad]
  | x :: pre, bad, post, e, hpre, hbad => by
    have hx := hpre x (List.mem_cons_self x pre)
    have ih := execSpec_first_err copyRes pre bad post e
      (fun y hy => hpre y (List.mem_cons_of_mem x hy)) hbad
    rw [List.cons_append, execSpec, hx, ih]

theorem execSpec_sub (copyRes : String → String → Option String) : ∀ l : List CopyItem,
    ∀ it ∈ (execSpec copyRes l).1, it ∈ l
  | [], it, h => by simp [execSpec] at h
  | x :: rest, it, h => by
    rw [execSpec] at h
    cases hcopy : copyRes x.FileMeta.SourcePath x.TargetPath with
    | some e => rw [hcopy] at h; simp at h
    | none =>
      rw [hcopy] at h
      simp only [List.mem_cons] at h ⊢
      rcases h with h | h
      · exact Or.inl h
      · exact Or.inr (execSpec_sub copyRes rest it h)

/-! Claim theorems. -/

/-- C1: for every CopyPlan returned without error by `Planner.Plan`,
`RawCount + JpegCount` equals the length of `Items`, and every item of
`OverrideItems` is also present in `Items`. -/
theorem c1_plan_count_invariant (p : Planner) (sourceDir targetDir : String)
    (sd ed : Option Int) (plan : CopyPlan)
    (h : Planner.Plan p sourceDir targetDir sd ed = (plan, none)) :
    plan.RawCount + plan.JpegCount = plan.Items.length ∧
      ∀ it ∈ plan.OverrideItems, it ∈ plan.Items := by
  obtain ⟨s, overrides, hs, ho, hplan⟩ := Plan_ok_inv h
  obtain ⟨hne, hnf, hseq⟩ := scan_ok_inv hs
  subst hplan
  constructor
  · show (buildItems targetDir (sortMetas s.metas)).2.1 +
        (buildItems targetDir (sortMetas s.metas)).2.2 =
      (buildItems targetDir (sortMetas s.metas)).1.length
    rw [buildItems_eq]
    simp only [List.length_map]
    apply countP_raw_add_jpeg
    intro m hm
    apply metas_classified hne
    have hm' := (sortMetas_perm s.metas).subset hm
    rw [hseq] at hm'
    exact hm'
  · show ∀ it ∈ overrides, it ∈ (buildItems targetDir (sortMetas s.metas)).1
    cases hov : p.allowOverride with
    | false =>
      rw [hov] at ho
      simp only [Bool.false_eq_true, if_false, Except.ok.injEq] at ho
      rw [← ho]
      simp
    | true =>
      rw [hov] at ho
      simp only [if_true] at ho
      obtain ⟨hfil, _⟩ := detectOverrides_ok_inv p _ _ ho
      intro it hit
      rw [hfil] at hit
      exact (List.mem_filter.mp hit).1

/-- C9: the derived date range is the explicit bounds verbatim when at
least one explicit bound was supplied, `none`/`none` for an empty item
list, and otherwise the minimum and maximum capture time over the
items. -/
theorem c9_deriveRange (items : List CopyItem) (sd ed : Option Int) :
    ((sd.isSome = true ∨ ed.isSome = true) → deriveRange items sd ed = (sd, ed)) ∧
    (sd = none → ed = none → items = [] → deriveRange items sd ed = (none, none)) ∧
    (sd = none → ed = none → ∀ it0 rest, items = it0 :: rest →
      ∃ lo hi, deriveRange items sd ed = (some lo, some hi) ∧
        lo ∈ items.map (fun it => it.FileMeta.TakenAt) ∧
        hi ∈ items.map (fun it => it.FileMeta.TakenAt) ∧
        ∀ t ∈ items.map (fun it => it.FileMeta.TakenAt), lo ≤ t ∧ t ≤ hi) := by
  refine ⟨?_, ?_, ?_⟩
  · intro h
    unfold deriveRange
    rcases h with h | h <;> simp [h]
  · rintro rfl rfl rfl
    rfl
  · rintro rfl rfl it0 rest rfl
    refine ⟨rest.foldl minStep it0.FileMeta.TakenAt, rest.foldl maxStep it0.FileMeta.TakenAt,
      rfl, ?_, ?_, ?_⟩
    · rcases foldl_minStep_mem rest it0.FileMeta.TakenAt with h | h
      · rw [h]; simp
      · simp only [List.map_cons, List.mem_cons]
        exact Or.inr h
    · rcases foldl_maxStep_mem rest it0.FileMeta.TakenAt with h | h
      · rw [h]; simp
      · simp only [List.map_cons, List.mem_cons]
        exact Or.inr h
    · intro t ht
      simp only [List.map_cons, List.mem_cons] at ht
      rcases ht with rfl | ht
      · exact ⟨(foldl_minStep_le rest _).1, (foldl_maxStep_ge rest _).1⟩
      · rw [List.mem_map] at ht
        obtain ⟨it, hit, rfl⟩ := ht
        exact ⟨(foldl_minStep_le rest _).2 it hit, (foldl_maxStep_ge rest _).2 it hit⟩

/-- Items of the plan the executor will attempt for a given
`includeOverrides` decision: every plan item when overrides are
included, otherwise the plan items whose target path is not among the
override targets (the same overwrite set `Execute` builds). -/
def execItemsToCopy (plan : CopyPlan) (includeOverrides : Bool) : List CopyItem :=
  plan.Items.filter (fun it =>
    !(if includeOverrides then []
      else plan.OverrideItems.map (fun o => o.TargetPath)).contains it.TargetPath)

/-- C7: for every `includeOverrides` decision, `Execute` copies exactly
the non-excluded items of `Items` in plan order when all copies
succeed, and on the first copy failure stops, returns that error
verbatim, and keeps exactly the copies performed before the failure;
with `includeOverrides = false` it never copies an item whose target
path appears among the override targets, while with
`includeOverrides = true` no item is excluded. -/
theorem c7_execute (plan : CopyPlan) (copyRes : String → String → Option String) :
    (∀ it ∈ (Execute plan false copyRes).1,
        ¬ it.TargetPath ∈ plan.OverrideItems.map (fun o => o.TargetPath)) ∧
    execItemsToCopy plan true = plan.Items ∧
    ∀ includeOverrides : Bool,
      ((∀ it ∈ execItemsToCopy plan includeOverrides,
          copyRes it.FileMeta.SourcePath it.TargetPath = none) →
        Execute plan includeOverrides copyRes =
          (execItemsToCopy plan includeOverrides, none)) ∧
      (∀ pre bad post e, execItemsToCopy plan includeOverrides = pre ++ bad :: post →
        (∀ x ∈ pre, copyRes x.FileMeta.SourcePath x.TargetPath = none) →
        copyRes bad.FileMeta.SourcePath bad.TargetPath = some e →
        Execute plan includeOverrides copyRes = (pre, some e)) := by
  have hexec : ∀ b : Bool, Execute plan b copyRes =
      execSpec copyRes (execItemsToCopy plan b) := by
    intro b
    unfold Execute execItemsToCopy
    exact execLoop_eq_execSpec _ copyRes plan.Items
  refine ⟨?_, ?_, ?_⟩
  · intro it hit
    rw [hexec false] at hit
    have hmem := execSpec_sub copyRes (execItemsToCopy plan false) it hit
    have hcond := (List.mem_filter.mp hmem).2
    simp only [Bool.false_eq_true, if_false, Bool.not_eq_true'] at hcond
    intro hmem2
    have htrue : (plan.OverrideItems.map (fun o => o.TargetPath)).contains it.TargetPath = true :=
      List.elem_iff.mpr hmem2
    rw [htrue] at hcond
    cases hcond
  · simp [execItemsToCopy]
  · intro b
    constructor
    · intro hall
      rw [hexec b]
      exact execSpec_all_ok copyRes _ hall
    · intro pre bad post e hsplit hpre hbad
      rw [hexec b, hsplit]
      exact execSpec_first_err copyRes pre bad post e hpre hbad

/-- C8: a directory-walk error makes `Plan` return the zero CopyPlan
with that error; any scan error does likewise; a stat failure on a
candidate forces the scan to fail, with exactly that error surfacing
when the failing candidate is the first fatal one. -/
theorem c8_failed_scan (p : Planner) (sourceDir targetDir : String) (sd ed : Option Int) :
    (∀ e, walkPhase p.fs.walk = Except.error e →
        Planner.Plan p sourceDir targetDir sd ed = (emptyCopyPlan, some e)) ∧
    (∀ e, scan p sourceDir targetDir sd ed = Except.error e →
        Planner.Plan p sourceDir targetDir sd ed = (emptyCopyPlan, some e)) ∧
    (∀ q ∈ pathsToProcess p sourceDir targetDir, ∀ e, p.fs.statRes q = Except.error e →
        ∃ e2, scan p sourceDir targetDir sd ed = Except.error e2) ∧
    (∀ pre q post e, pathsToProcess p sourceDir targetDir = pre ++ q :: post →
        (∀ x ∈ pre, outcomeFatalB (processPath p sourceDir sd ed x) = false) →
        p.fs.statRes q = Except.error e →
        scan p sourceDir targetDir sd ed = Except.error e) := by
  refine ⟨?_, ?_, ?_, ?_⟩
  · intro e hw
    exact Plan_eq_of_scanError (scan_error_of_walkError hw)
  · intro e hs
    exact Plan_eq_of_scanError hs
  · intro q hq e hstat
    cases hscan : scan p sourceDir targetDir sd ed with
    | error e2 => exact ⟨e2, rfl⟩
    | ok s =>
      exfalso
      obtain ⟨_, hnf, _⟩ := scan_ok_inv hscan
      have hfat := hnf (processPath p sourceDir sd ed q) (List.mem_map_of_mem _ hq)
      rw [processPath_statError hstat] at hfat
      simp [outcomeFatalB] at hfat
  · intro pre q post e hsplit hpre hstat
    cases hw : walkPhase p.fs.walk with
    | error e2 =>
      exfalso
      simp only [pathsToProcess, hw] at hsplit
      exact absurd hsplit.symm (by simp)
    | ok t =>
      have hsplit' : (phase2raw p sourceDir targetDir t.1).1 ++
          (phase2jpeg p sourceDir targetDir t.2.2 t.2.1).1 = pre ++ q :: post := by
        rw [pathsToProcess] at hsplit
        simpa only [hw] using hsplit
      unfold scan
      simp only [hw, hsplit', List.map_append, List.map_cons]
      rw [collect_error_append (pre.map (processPath p sourceDir sd ed))
        (processPath p sourceDir sd ed q) (post.map (processPath p sourceDir sd ed)) e
        (by
          intro x hx
          rw [List.mem_map] at hx
          obtain ⟨y, hy, rfl⟩ := hx
          exact hpre y hy)
        (by rw [processPath_statError hstat])]

theorem NewFileMeta_RelativePath (sp rp : String) (t : Int) :
    (NewFileMeta sp rp t).RelativePath = rp := rfl

theorem mem_rawWalkPaths_entry {entries : List FSEntry} {q : String}
    (h : q ∈ rawWalkPaths entries) : ∃ e ∈ entries, e.path = q := by
  unfold rawWalkPaths at h
  rw [List.mem_filterMap] at h
  obtain ⟨e, he, hsel⟩ := h
  by_cases hc : (!e.isDir && IsRawExtension (filepathExt (filepathBase e.path))) = true
  · rw [if_pos hc] at hsel
    exact ⟨e, he, (Option.some.injEq _ _).mp hsel⟩
  · rw [if_neg hc] at hsel
    exact Option.noConfusion hsel

theorem mem_jpegWalkPaths_entry {entries : List FSEntry} {q : String}
    (h : q ∈ jpegWalkPaths entries) : ∃ e ∈ entries, e.path = q := by
  unfold jpegWalkPaths at h
  rw [List.mem_filterMap] at h
  obtain ⟨e, he, hsel⟩ := h
  by_cases hc : (!e.isDir && !IsRawExtension (filepathExt (filepathBase e.path))
      && IsJpegExtension (filepathExt (filepathBase e.path))) = true
  · rw [if_pos hc] at hsel
    exact ⟨e, he, (Option.some.injEq _ _).mp hsel⟩
  · rw [if_neg hc] at hsel
    exact Option.noConfusion hsel

theorem MetaLE_semantic {a b : FileMeta} : MetaLE a b ↔
    (a.TakenAt < b.TakenAt ∨ (a.TakenAt = b.TakenAt ∧ a.Name ≤ b.Name)) := by
  rw [MetaLE_iff]
  unfold metaKey
  rw [Prod.Lex.le_iff]

/-- Decomposition of a successful plan's items: each is a surviving
metadata record paired with its resolved target path, and the record
came from `processPath` on a candidate of `pathsToProcess`. -/
theorem mem_plan_items {p : Planner} {sourceDir targetDir : String} {sd ed : Option Int}
    {s : ScanOut} {it : CopyItem}
    (hseq : s = ⟨includedMetas ((pathsToProcess p sourceDir targetDir).map
        (processPath p sourceDir sd ed)),
      collectWarnings ((pathsToProcess p sourceDir targetDir).map (processPath p sourceDir sd ed)),
      (jpegWalkPaths p.fs.walk).countP (fun q => hasRawCounterpart p.fs.walk q),
      dateSkipRawCount ((pathsToProcess p sourceDir targetDir).map (processPath p sourceDir sd ed)),
      (rawWalkPaths p.fs.walk).countP (fun q => !shouldIncludeSource p sourceDir targetDir q)⟩)
    (hit : it ∈ (buildItems targetDir (sortMetas s.metas)).1) :
    ∃ m, it = { FileMeta := m, TargetPath := joinPath targetDir m.RelativePath } ∧
      m.SourcePath ∈ pathsToProcess p sourceDir targetDir ∧
      ∃ w c, processPath p sourceDir sd ed m.SourcePath = (WorkerOutcome.included m w, c) := by
  rw [buildItems_eq] at hit
  simp only [List.mem_map] at hit
  obtain ⟨m, hm, hmk⟩ := hit
  have hm2 : m ∈ s.metas := (sortMetas_perm s.metas).subset hm
  rw [hseq] at hm2
  obtain ⟨hsrc, w, c, hproc⟩ := includedMetas_source hm2
  exact ⟨m, hmk.symm, hsrc, w, c, hproc⟩

/-- C2: `SkippedJPEGs` counts exactly the walked JPEG candidates with a
case-insensitive RAW base-name counterpart; such JPEGs never appear in
`Items`; and both the per-path counterpart decision and the count are
invariant under permutations of the walk sequence. -/
theorem c2_jpeg_dedup (p : Planner) (sourceDir targetDir : String) (sd ed : Option Int)
    (plan : CopyPlan) (h : Planner.Plan p sourceDir targetDir sd ed = (plan, none)) :
    plan.SkippedJPEGs =
      (jpegWalkPaths p.fs.walk).countP (fun q => hasRawCounterpart p.fs.walk q) ∧
    (∀ q ∈ jpegWalkPaths p.fs.walk, hasRawCounterpart p.fs.walk q = true →
      ∀ it ∈ plan.Items, it.FileMeta.SourcePath ≠ q) ∧
    (∀ entries2 : List FSEntry, List.Perm p.fs.walk entries2 →
      (∀ q, hasRawCounterpart p.fs.walk q = hasRawCounterpart entries2 q) ∧
      (jpegWalkPaths p.fs.walk).countP (fun q => hasRawCounterpart p.fs.walk q) =
        (jpegWalkPaths entries2).countP (fun q => hasRawCounterpart entries2 q)) := by
  obtain ⟨s, overrides, hs, ho, hplan⟩ := Plan_ok_inv h
  obtain ⟨hne, hnf, hseq⟩ := scan_ok_inv hs
  subst hplan
  refine ⟨?_, ?_, ?_⟩
  · show s.skippedJPEGs = _
    rw [hseq]
  · intro q hqj hqraw it hit hsrc
    obtain ⟨m, rfl, hsrcmem, w, c, hproc⟩ := mem_plan_items hseq hit
    have hq' : m.SourcePath = q := hsrc
    rw [hq', pathsToProcess_eq_of_noErr p sourceDir targetDir hne] at hsrcmem
    rcases List.mem_append.mp hsrcmem with hmem | hmem
    · have h1 := mem_rawWalkPaths (List.mem_filter.mp hmem).1
      have h2 := (mem_jpegWalkPaths hqj).1
      rw [h1] at h2
      cases h2
    · have hcond := (List.mem_filter.mp hmem).2
      unfold jpegKept at hcond
      simp only [Bool.and_eq_true, Bool.not_eq_true'] at hcond
      unfold hasRawCounterpart at hqraw
      rw [hcond.1] at hqraw
      cases hqraw
  · intro entries2 hperm
    have hbase : ∀ x, (rawBaseKeys p.fs.walk).contains x = (rawBaseKeys entries2).contains x := by
      intro x
      have hp2 : List.Perm (rawBaseKeys p.fs.walk) (rawBaseKeys entries2) := hperm.filterMap _
      by_cases hx : x ∈ rawBaseKeys p.fs.walk
      · have h1 : (rawBaseKeys p.fs.walk).contains x = true := List.elem_iff.mpr hx
        have h2 : (rawBaseKeys entries2).contains x = true :=
          List.elem_iff.mpr (hp2.subset hx)
        rw [h1, h2]
      · have hx2 : ¬ x ∈ rawBaseKeys entries2 := fun hh => hx (hp2.symm.subset hh)
        cases hc1 : (rawBaseKeys p.fs.walk).contains x with
        | false =>
          cases hc2 : (rawBaseKeys entries2).contains x with
          | false => rfl
          | true => exact absurd (List.elem_iff.mp hc2) hx2
        | true => exact absurd (List.elem_iff.mp hc1) hx
    have hdec : ∀ q, hasRawCounterpart p.fs.walk q = hasRawCounterpart entries2 q := by
      intro q
      unfold hasRawCounterpart
      exact hbase _
    refine ⟨hdec, ?_⟩
    have hjp : List.Perm (jpegWalkPaths p.fs.walk) (jpegWalkPaths entries2) := hperm.filterMap _
    calc (jpegWalkPaths p.fs.walk).countP (fun q => hasRawCounterpart p.fs.walk q)
        = (jpegWalkPaths p.fs.walk).countP (fun q => hasRawCounterpart entries2 q) :=
          List.countP_congr (fun x _ => by rw [hdec x])
      _ = (jpegWalkPaths entries2).countP (fun q => hasRawCounterpart entries2 q) :=
          hjp.countP_eq _

/-- C6: when override mode is on, `OverrideItems` is exactly the set of
final items whose target already exists (so a surviving item with an
existing target appears in both lists); when it is off, the detection
step is skipped and `OverrideItems` is empty. -/
theorem c6_override_detection (p : Planner) (sourceDir targetDir : String)
    (sd ed : Option Int) (plan : CopyPlan)
    (h : Planner.Plan p sourceDir targetDir sd ed = (plan, none)) :
    (p.allowOverride = true →
      plan.OverrideItems = plan.Items.filter (fun it => (p.fs.existsRes it.TargetPath).1) ∧
      ∀ it ∈ plan.Items, (p.fs.existsRes it.TargetPath).1 = true → it ∈ plan.OverrideItems) ∧
    (p.allowOverride = false → plan.OverrideItems = []) := by
  obtain ⟨s, overrides, hs, ho, hplan⟩ := Plan_ok_inv h
  subst hplan
  constructor
  · intro hov
    rw [if_pos hov] at ho
    obtain ⟨hfil, _⟩ := detectOverrides_ok_inv p _ _ ho
    constructor
    · show overrides = _
      exact hfil
    · intro it hit hex
      show it ∈ overrides
      rw [hfil]
      exact List.mem_filter.mpr ⟨hit, hex⟩
  · intro hov
    rw [if_neg (by rw [hov]; simp)] at ho
    simp only [Except.ok.injEq] at ho
    exact ho.symm

/-- C10: the date-bound comparisons are strict: a candidate whose
resolved capture timestamp equals the configured start date (or the end
date) is not skipped by the date filter, and absent other exclusions
its record reaches `Items`. -/
theorem c10_inclusive_bounds (p : Planner) (sourceDir targetDir : String) (q : String) :
    (∀ t0 mt (ed : Option Int), p.fs.statRes q = Except.ok mt → ¬ mt < t0 →
      p.exif q = ExifRes.ok t0 → (∀ en, ed = some en → ¬ en < t0) →
      processPath p sourceDir (some t0) ed q =
        (WorkerOutcome.included (NewFileMeta q (relOrBase sourceDir q) t0) none, true)) ∧
    (∀ t1 mt (sd : Option Int), p.fs.statRes q = Except.ok mt → beforeOpt mt sd = false →
      p.exif q = ExifRes.ok t1 → beforeOpt t1 sd = false →
      processPath p sourceDir sd (some t1) q =
        (WorkerOutcome.included (NewFileMeta q (relOrBase sourceDir q) t1) none, true)) ∧
    (∀ (sd ed : Option Int) m plan, Planner.Plan p sourceDir targetDir sd ed = (plan, none) →
      q ∈ pathsToProcess p sourceDir targetDir →
      (∃ w c, processPath p sourceDir sd ed q = (WorkerOutcome.included m w, c)) →
      ∃ it ∈ plan.Items, it.FileMeta = m) := by
  refine ⟨?_, ?_, ?_⟩
  · intro t0 mt ed hstat hmt hex hend
    apply processPath_included_of hstat
    · simp only [beforeOpt, decide_eq_false_iff_not]
      exact hmt
    · exact hex
    · simp only [beforeOpt, decide_eq_false_iff_not]
      omega
    · cases ed with
      | none => rfl
      | some en =>
        simp only [afterOpt, decide_eq_false_iff_not]
        exact hend en rfl
  · intro t1 mt sd hstat hfast hex hbef
    apply processPath_included_of hstat hfast hex hbef
    simp only [afterOpt, decide_eq_false_iff_not]
    omega
  · intro sd ed m plan h hq hproc
    obtain ⟨s, overrides, hs, ho, hplan⟩ := Plan_ok_inv h
    obtain ⟨hne, hnf, hseq⟩ := scan_ok_inv hs
    subst hplan
    obtain ⟨w, c, hpq⟩ := hproc
    have hmem : m ∈ s.metas := by
      rw [hseq]
      exact mem_includedMetas.mpr ⟨q, hq, w, c, hpq⟩
    have hmem2 : m ∈ sortMetas s.metas := (sortMetas_perm s.metas).symm.subset hmem
    refine ⟨{ FileMeta := m, TargetPath := joinPath targetDir m.RelativePath }, ?_, rfl⟩
    show _ ∈ (buildItems targetDir (sortMetas s.metas)).1
    rw [buildItems_eq]
    simp only [List.mem_map]
    exact ⟨m, hmem2, rfl⟩

/-- C3 (amended): with override mode disabled, `OverrideItems` is
empty, no surviving item's target path exists, the duplicate-skip
counter counts exactly the RAW candidates rejected by the pre-filter,
and a JPEG candidate rejected by the pre-filter is dropped before
metadata extraction without being counted anywhere (the counter is
RAW-only). -/
theorem c3_duplicate_skip (p : Planner) (sourceDir targetDir : String) (sd ed : Option Int)
    (plan : CopyPlan) (hov : p.allowOverride = false)
    (hrel : ∀ e ∈ p.fs.walk, (relPath sourceDir e.path).isSome = true)
    (h : Planner.Plan p sourceDir targetDir sd ed = (plan, none)) :
    plan.OverrideItems = [] ∧
    (∀ it ∈ plan.Items, (p.fs.existsRes it.TargetPath).1 = false) ∧
    plan.SkippedRAWsDupl =
      (rawWalkPaths p.fs.walk).countP (fun q => !shouldIncludeSource p sourceDir targetDir q) ∧
    (∀ q ∈ jpegWalkPaths p.fs.walk, hasRawCounterpart p.fs.walk q = false →
      shouldIncludeSource p sourceDir targetDir q = false →
      ¬ q ∈ pathsToProcess p sourceDir targetDir) := by
  obtain ⟨s, overrides, hs, ho, hplan⟩ := Plan_ok_inv h
  obtain ⟨hne, hnf, hseq⟩ := scan_ok_inv hs
  have hov' : overrides = [] := by
    rw [if_neg (by rw [hov]; simp)] at ho
    simp only [Except.ok.injEq] at ho
    exact ho.symm
  subst hplan
  refine ⟨hov', ?_, ?_, ?_⟩
  · intro it hit
    obtain ⟨m, rfl, hsrcmem, w, c, hproc⟩ := mem_plan_items hseq hit
    obtain ⟨t, hmeq⟩ := processPath_included_inv hproc
    rw [pathsToProcess_eq_of_noErr p sourceDir targetDir hne] at hsrcmem
    have hsi : shouldIncludeSource p sourceDir targetDir m.SourcePath = true := by
      rcases List.mem_append.mp hsrcmem with hmem | hmem
      · exact (List.mem_filter.mp hmem).2
      · have hcond := (List.mem_filter.mp hmem).2
        unfold jpegKept at hcond
        simp only [Bool.and_eq_true] at hcond
        exact hcond.2
    have hentry : ∃ e ∈ p.fs.walk, e.path = m.SourcePath := by
      rcases List.mem_append.mp hsrcmem with hmem | hmem
      · exact mem_rawWalkPaths_entry (List.mem_filter.mp hmem).1
      · exact mem_jpegWalkPaths_entry (List.mem_filter.mp hmem).1
    obtain ⟨e, he, hep⟩ := hentry
    obtain ⟨rel, hrelq⟩ : ∃ rel, relPath sourceDir m.SourcePath = some rel := by
      have hsome := hrel e he
      rw [hep] at hsome
      exact Option.isSome_iff_exists.mp hsome
    have hsi' : (p.fs.existsRes (joinPath targetDir rel)).1 = false := by
      unfold shouldIncludeSource at hsi
      rw [if_neg (by rw [hov]; simp), hrelq] at hsi
      simpa using hsi
    have hrp : m.RelativePath = rel := by
      conv_lhs => rw [hmeq]
      rw [NewFileMeta_RelativePath]
      unfold relOrBase
      rw [hrelq]
    show (p.fs.existsRes (joinPath targetDir m.RelativePath)).1 = false
    rw [hrp]
    exact hsi'
  · show s.skippedRAWsDupl = _
    rw [hseq]
  · intro q hqj hqc hqsi hqin
    rw [pathsToProcess_eq_of_noErr p sourceDir targetDir hne] at hqin
    rcases List.mem_append.mp hqin with hmem | hmem
    · have h1 := mem_rawWalkPaths (List.mem_filter.mp hmem).1
      have h2 := (mem_jpegWalkPaths hqj).1
      rw [h1] at h2
      cases h2
    · have hcond := (List.mem_filter.mp hmem).2
      unfold jpegKept at hcond
      simp only [Bool.and_eq_true] at hcond
      rw [hqsi] at hcond
      exact absurd hcond.2 (by simp)

/-- C4 (amended): a candidate whose modification time precedes the
explicit start date is skipped without invoking the EXIF reader (the
instrumentation bit of `processPath` is `false`) and never reaches
`Items`; the `SkippedRAWsDate` counter counts exactly the
RAW-classified date skips, so non-RAW candidates skipped this way are
counted nowhere. -/
theorem c4_fastpath (p : Planner) (sourceDir targetDir : String) (s0 : Int) (ed : Option Int)
    (q : String) (mt : Int) (hq : q ∈ pathsToProcess p sourceDir targetDir)
    (hstat : p.fs.statRes q = Except.ok mt) (hlt : mt < s0) :
    processPath p sourceDir (some s0) ed q =
      (WorkerOutcome.skipped (IsRawExtension (filepathExt q)), false) ∧
    ∀ plan, Planner.Plan p sourceDir targetDir (some s0) ed = (plan, none) →
      (∀ it ∈ plan.Items, it.FileMeta.SourcePath ≠ q) ∧
      plan.SkippedRAWsDate =
        dateSkipRawCount ((pathsToProcess p sourceDir targetDir).map
          (processPath p sourceDir (some s0) ed)) := by
  have hskip : processPath p sourceDir (some s0) ed q =
      (WorkerOutcome.skipped (IsRawExtension (filepathExt q)), false) :=
    processPath_fastSkip hstat hlt
  refine ⟨hskip, ?_⟩
  intro plan h
  obtain ⟨s, overrides, hs, ho, hplan⟩ := Plan_ok_inv h
  obtain ⟨hne, hnf, hseq⟩ := scan_ok_inv hs
  subst hplan
  constructor
  · intro it hit hsrc
    obtain ⟨m, rfl, hsrcmem, w, c, hproc⟩ := mem_plan_items hseq hit
    have hq' : m.SourcePath = q := hsrc
    rw [hq', hskip] at hproc
    simp at hproc
  · show s.skippedRAWsDate = _
    rw [hseq]

/-- C5 (amended): the items of every successful plan are sorted by
capture time ascending with ties broken by name ascending; the sorted
item sequence is independent of the arrival order of the surviving
records whenever no two distinct records share both capture time and
name (under a full key tie, order dependence remains). -/
theorem c5_sorted_and_deterministic :
    (∀ (p : Planner) (sourceDir targetDir : String) (sd ed : Option Int) (plan : CopyPlan),
      Planner.Plan p sourceDir targetDir sd ed = (plan, none) →
      List.Sorted (fun a b : FileMeta =>
          a.TakenAt < b.TakenAt ∨ (a.TakenAt = b.TakenAt ∧ a.Name ≤ b.Name))
        (plan.Items.map (fun it => it.FileMeta))) ∧
    (∀ (targetDir : String) (l1 l2 : List FileMeta), List.Perm l1 l2 →
      (∀ a ∈ l1, ∀ b ∈ l1, a.TakenAt = b.TakenAt → a.Name = b.Name → a = b) →
      planItems targetDir l1 = planItems targetDir l2) := by
  constructor
  · intro p sourceDir targetDir sd ed plan h
    obtain ⟨s, overrides, hs, ho, hplan⟩ := Plan_ok_inv h
    subst hplan
    have hmap : (planOf targetDir sd ed s overrides).Items.map (fun it => it.FileMeta) =
        sortMetas s.metas := by
      show ((buildItems targetDir (sortMetas s.metas)).1).map (fun it => it.FileMeta) = _
      rw [buildItems_eq]
      rw [List.map_map]
      have hcomp : ((fun it : CopyItem => it.FileMeta) ∘ fun m : FileMeta =>
          ({ FileMeta := m, TargetPath := joinPath targetDir m.RelativePath } : CopyItem)) =
          id := rfl
      rw [hcomp, List.map_id]
    rw [hmap]
    exact (sortMetas_sorted s.metas).imp (fun hab => MetaLE_semantic.mp hab)
  · intro targetDir l1 l2 hp hnt
    unfold planItems
    rw [sortMetas_eq_of_perm hp hnt]

/-! Concrete scenarios used by the counterexamples and witnesses. -/

/-- Filesystem with one RAW, one free JPEG and one JPEG shadowed by the
RAW's base name; no target exists. -/
def fsW : FS :=
  { walk := [{ path := "src/a.arw", isDir := false, walkErr := none },
             { path := "src/b.jpg", isDir := false, walkErr := none },
             { path := "src/a.jpg", isDir := false, walkErr := none }],
    statRes := fun _ => Except.ok 5,
    existsRes := fun _ => (false, none) }

/-- Planner over `fsW`, override mode off. -/
def pW : Planner :=
  { fs := fsW,
    exif := fun q => if q = "src/a.arw" then ExifRes.ok 3 else ExifRes.ok 7,
    allowOverride := false }

/-- Filesystem with a JPEG and a RAW whose targets both already exist. -/
def fsDup : FS :=
  { walk := [{ path := "src/a.jpg", isDir := false, walkErr := none },
             { path := "src/c.arw", isDir := false, walkErr := none }],
    statRes := fun _ => Except.ok 5,
    existsRes := fun t => (t == "tgt/a.jpg" || t == "tgt/c.arw", none) }

/-- Planner over `fsDup`, override mode off. -/
def pDup : Planner :=
  { fs := fsDup, exif := fun _ => ExifRes.ok 5, allowOverride := false }

/-- Filesystem with a JPEG and a RAW both modified before the start
date used in the fast-path counterexample. -/
def fsOld : FS :=
  { walk := [{ path := "src/a.jpg", isDir := false, walkErr := none },
             { path := "src/c.arw", isDir := false, walkErr := none }],
    statRes := fun _ => Except.ok 0,
    existsRes := fun _ => (false, none) }

/-- Planner over `fsOld`, override mode off. -/
def pOld : Planner :=
  { fs := fsOld, exif := fun _ => ExifRes.ok 50, allowOverride := false }

/-- Two distinct records with equal capture time and equal display name
(same base name in different subdirectories). -/
def mTieA : FileMeta := NewFileMeta "src/a/DSC01.arw" "a/DSC01.arw" 5

/-- Tie partner of `mTieA`. -/
def mTieB : FileMeta := NewFileMeta "src/b/DSC01.arw" "b/DSC01.arw" 5

/-- Surviving records of `pW`'s plan, used to exercise determinism. -/
def mW1 : FileMeta := NewFileMeta "src/a.arw" "a.arw" 3

/-- Second surviving record of `pW`'s plan. -/
def mW2 : FileMeta := NewFileMeta "src/b.jpg" "b.jpg" 7

/-- Filesystem whose single RAW file already exists at the target. -/
def fsOvr : FS :=
  { walk := [{ path := "src/a.arw", isDir := false, walkErr := none }],
    statRes := fun _ => Except.ok 5,
    existsRes := fun _ => (true, none) }

/-- Planner over `fsOvr`, override mode on. -/
def pOvr : Planner :=
  { fs := fsOvr, exif := fun _ => ExifRes.ok 5, allowOverride := true }

/-- Executor fixture: first free item. -/
def itW1 : CopyItem := { FileMeta := NewFileMeta "s/x.arw" "x.arw" 1, TargetPath := "t/x.arw" }

/-- Executor fixture: item whose target is an override target. -/
def itW2 : CopyItem := { FileMeta := NewFileMeta "s/y.arw" "y.arw" 2, TargetPath := "t/y.arw" }

/-- Executor fixture: item whose copy fails. -/
def itW3 : CopyItem := { FileMeta := NewFileMeta "s/z.jpg" "z.jpg" 3, TargetPath := "t/z.jpg" }

/-- Plan handed to the executor fixture. -/
def planW7 : CopyPlan :=
  { emptyCopyPlan with Items := [itW1, itW2, itW3], OverrideItems := [itW2] }

/-- Copy primitive failing exactly on `itW3`'s source. -/
def copyW7 : String → String → Option String :=
  fun src _ => if src = "s/z.jpg" then some "boom" else none

/-- Filesystem whose walk fails on its only entry. -/
def fsErr : FS :=
  { walk := [{ path := "src/x.arw", isDir := false, walkErr := some "walk failed" }],
    statRes := fun _ => Except.ok 0,
    existsRes := fun _ => (false, none) }

/-- Planner over `fsErr`. -/
def pErr : Planner :=
  { fs := fsErr, exif := fun _ => ExifRes.ok 0, allowOverride := false }

/-- Range fixture with capture times 4 and 2. -/
def itR1 : CopyItem := { FileMeta := NewFileMeta "s/p.arw" "p.arw" 4, TargetPath := "t/p.arw" }

/-- Range fixture partner of `itR1`. -/
def itR2 : CopyItem := { FileMeta := NewFileMeta "s/q.arw" "q.arw" 2, TargetPath := "t/q.arw" }

/-- Filesystem/EXIF pair whose capture time equals the start bound. -/
def fsEq : FS :=
  { walk := [{ path := "src/a.arw", isDir := false, walkErr := none }],
    statRes := fun _ => Except.ok 10,
    existsRes := fun _ => (false, none) }

/-- Planner over `fsEq`. -/
def pEq : Planner :=
  { fs := fsEq, exif := fun _ => ExifRes.ok 10, allowOverride := false }

/-! Counterexamples. -/

/-- C3 counterexample: with override mode off, both walked candidates
(a JPEG and a RAW) have existing targets and are dropped before
metadata extraction, yet only the RAW is counted: the duplicate-skip
counter ends at 1, every other skip counter at 0, refuting the claim
that every such candidate (RAW or JPEG) is counted under the
duplicate-skip counter. -/
theorem c3_counterexample :
    (Planner.Plan pDup "src" "tgt" none none).2 = none ∧
    pathsToProcess pDup "src" "tgt" = [] ∧
    (Planner.Plan pDup "src" "tgt" none none).1.Items = [] ∧
    (Planner.Plan pDup "src" "tgt" none none).1.SkippedRAWsDupl = 1 ∧
    (Planner.Plan pDup "src" "tgt" none none).1.SkippedJPEGs = 0 ∧
    (Planner.Plan pDup "src" "tgt" none none).1.SkippedRAWsDate = 0 := by
  refine ⟨?_, ?_, ?_, ?_, ?_, ?_⟩ <;> decide

/-- C4 counterexample: both walked candidates (a JPEG and a RAW) have
modification time 0, before the explicit start date 10, and both are
skipped without invoking the metadata extractor; but only the RAW is
counted (SkippedRAWsDate = 1, all other counters 0), refuting the claim
that every such candidate is counted under the date-skip counter
according to its classification. -/
theorem c4_counterexample :
    processPath pOld "src" (some 10) none "src/a.jpg" = (WorkerOutcome.skipped false, false) ∧
    processPath pOld "src" (some 10) none "src/c.arw" = (WorkerOutcome.skipped true, false) ∧
    (Planner.Plan pOld "src" "tgt" (some 10) none).2 = none ∧
    (Planner.Plan pOld "src" "tgt" (some 10) none).1.Items = [] ∧
    (Planner.Plan pOld "src" "tgt" (some 10) none).1.SkippedRAWsDate = 1 ∧
    (Planner.Plan pOld "src" "tgt" (some 10) none).1.SkippedJPEGs = 0 ∧
    (Planner.Plan pOld "src" "tgt" (some 10) none).1.SkippedRAWsDupl = 0 := by
  refine ⟨?_, ?_, ?_, ?_, ?_, ?_, ?_⟩ <;> decide

/-- C5 counterexample: two distinct surviving records share capture
time and display name; the two arrival orders are permutations of each
other, yet they produce different plan item sequences, refuting the
claim that the sequence is identical for every submission/completion
order. -/
theorem c5_counterexample :
    List.Perm [mTieA, mTieB] [mTieB, mTieA] ∧
    planItems "tgt" [mTieA, mTieB] ≠ planItems "tgt" [mTieB, mTieA] := by
  constructor
  · exact List.Perm.swap mTieB mTieA []
  · decide

/-! Witnesses. -/

/-- C1 witness: the invariant evaluated on a concrete three-file plan. -/
theorem c1_witness :
    (Planner.Plan pW "src" "tgt" none none).1.RawCount +
        (Planner.Plan pW "src" "tgt" none none).1.JpegCount =
      (Planner.Plan pW "src" "tgt" none none).1.Items.length ∧
    ∀ it ∈ (Planner.Plan pW "src" "tgt" none none).1.OverrideItems,
      it ∈ (Planner.Plan pW "src" "tgt" none none).1.Items :=
  c1_plan_count_invariant pW "src" "tgt" none none
    (Planner.Plan pW "src" "tgt" none none).1 rfl

/-- C2 witness: the skipped-JPEG count equation on the concrete plan
(one JPEG shadowed by a RAW base name). -/
theorem c2_witness :
    (Planner.Plan pW "src" "tgt" none none).1.SkippedJPEGs =
      (jpegWalkPaths pW.fs.walk).countP (fun q => hasRawCounterpart pW.fs.walk q) :=
  (c2_jpeg_dedup pW "src" "tgt" none none (Planner.Plan pW "src" "tgt" none none).1 rfl).1

/-- C3 witness: the amended duplicate-skip behaviour on the concrete
planner with two existing targets. -/
theorem c3_witness :
    (Planner.Plan pDup "src" "tgt" none none).1.OverrideItems = [] ∧
    (Planner.Plan pDup "src" "tgt" none none).1.SkippedRAWsDupl =
      (rawWalkPaths pDup.fs.walk).countP (fun q => !shouldIncludeSource pDup "src" "tgt" q) := by
  have hthm := c3_duplicate_skip pDup "src" "tgt" none none
    (Planner.Plan pDup "src" "tgt" none none).1 rfl (by decide) rfl
  exact ⟨hthm.1, hthm.2.2.1⟩

/-- C4 witness: the amended fast-path behaviour on the concrete planner
whose JPEG candidate predates the start bound. -/
theorem c4_witness :
    processPath pOld "src" (some 10) none "src/a.jpg" =
      (WorkerOutcome.skipped (IsRawExtension (filepathExt "src/a.jpg")), false) ∧
    (Planner.Plan pOld "src" "tgt" (some 10) none).1.SkippedRAWsDate =
      dateSkipRawCount ((pathsToProcess pOld "src" "tgt").map
        (processPath pOld "src" (some 10) none)) := by
  have hthm := c4_fastpath pOld "src" "tgt" 10 none "src/a.jpg" 0 (by decide) rfl (by decide)
  exact ⟨hthm.1, (hthm.2 (Planner.Plan pOld "src" "tgt" (some 10) none).1 rfl).2⟩

/-- C5 witness: sortedness of a concrete plan's items, and arrival
order independence for two tie-free records. -/
theorem c5_witness :
    List.Sorted (fun a b : FileMeta =>
        a.TakenAt < b.TakenAt ∨ (a.TakenAt = b.TakenAt ∧ a.Name ≤ b.Name))
      ((Planner.Plan pW "src" "tgt" none none).1.Items.map (fun it => it.FileMeta)) ∧
    planItems "tgt" [mW1, mW2] = planItems "tgt" [mW2, mW1] := by
  refine ⟨c5_sorted_and_deterministic.1 pW "src" "tgt" none none _ rfl, ?_⟩
  exact c5_sorted_and_deterministic.2 "tgt" [mW1, mW2] [mW2, mW1]
    (List.Perm.swap mW2 mW1 []) (by decide)

/-- C6 witness: override detection on a concrete planner with override
mode on and an existing target. -/
theorem c6_witness :
    (Planner.Plan pOvr "src" "tgt" none none).1.OverrideItems =
      (Planner.Plan pOvr "src" "tgt" none none).1.Items.filter
        (fun it => (pOvr.fs.existsRes it.TargetPath).1) :=
  ((c6_override_detection pOvr "src" "tgt" none none
    (Planner.Plan pOvr "src" "tgt" none none).1 rfl).1 rfl).1

/-- C7 witness: on a concrete plan, with overrides excluded the
executor skips the override target, copies the first free item and
stops at the failing one with its error; with overrides included it
also copies the override item before stopping at the same failure,
with both earlier copies kept. -/
theorem c7_witness :
    Execute planW7 false copyW7 = ([itW1], some "boom") ∧
    Execute planW7 true copyW7 = ([itW1, itW2], some "boom") := by
  constructor
  · exact ((c7_execute planW7 copyW7).2.2 false).2 [itW1] itW3 [] "boom"
      (by decide) (by decide) (by decide)
  · exact ((c7_execute planW7 copyW7).2.2 true).2 [itW1, itW2] itW3 [] "boom"
      (by decide) (by decide) (by decide)

/-- C8 witness: a walk failure yields the zero plan and the error. -/
theorem c8_witness :
    Planner.Plan pErr "src" "tgt" none none = (emptyCopyPlan, some "walk failed") :=
  (c8_failed_scan pErr "src" "tgt" none none).1 "walk failed" rfl

/-- C9 witness: explicit bound passed through verbatim, and the
observed min/max on a concrete two-item list. -/
theorem c9_witness :
    deriveRange [itR1, itR2] (some 1) none = (some 1, none) ∧
    ∃ lo hi, deriveRange [itR1, itR2] none none = (some lo, some hi) ∧
      lo ∈ ([itR1, itR2].map (fun it => it.FileMeta.TakenAt)) ∧
      hi ∈ ([itR1, itR2].map (fun it => it.FileMeta.TakenAt)) ∧
      ∀ t ∈ [itR1, itR2].map (fun it => it.FileMeta.TakenAt), lo ≤ t ∧ t ≤ hi := by
  refine ⟨(c9_deriveRange [itR1, itR2] (some 1) none).1 (Or.inl rfl), ?_⟩
  exact (c9_deriveRange [itR1, itR2] none none).2.2 rfl rfl itR1 [itR2] rfl

/-- C10 witness: a candidate whose capture time equals the start bound
is included and reaches Items. -/
theorem c10_witness :
    processPath pEq "src" (some 10) none "src/a.arw" =
      (WorkerOutcome.included (NewFileMeta "src/a.arw" (relOrBase "src" "src/a.arw") 10) none,
        true) ∧
    ∃ it ∈ (Planner.Plan pEq "src" "tgt" (some 10) none).1.Items,
      it.FileMeta = NewFileMeta "src/a.arw" (relOrBase "src" "src/a.arw") 10 := by
  have h1 := (c10_inclusive_bounds pEq "src" "tgt" "src/a.arw").1 10 10 none rfl (by decide)
    rfl (fun en hen => Option.noConfusion hen)
  refine ⟨h1, ?_⟩
  exact (c10_inclusive_bounds pEq "src" "tgt" "src/a.arw").2.2 (some 10) none
    (NewFileMeta "src/a.arw" (relOrBase "src" "src/a.arw") 10)
    (Planner.Plan pEq "src" "tgt" (some 10) none).1 rfl (by decide) ⟨none, true, h1⟩
